import Mathlib

set_option linter.unusedSectionVars false
set_option linter.unusedVariables false
set_option autoImplicit false

/-!
Verification development for the `ctrl_flow_struct` structuring engine
(`src/backend/ctrl_flow_struct/mod.rs`): a shallow embedding of the
control-flow structuring algorithm ("No More Gotos") together with proofs
about it.  The modules `condition`, `graph_utils` and `ast_context` are not
part of the available sources; the definitions embedding them are modelled
from the specification and marked as such in their doc comments.
-/

namespace Radeco

/-! ### Condition algebra -/

/-- Modelled from the spec: boolean condition expressions (§4.2); the
`condition` module is not in src.  Structural identity of the hash-consed
handles is modelled by structural equality of this inductive. -/
inductive BCond (α : Type) : Type
  | tru : BCond α
  | fls : BCond α
  | simple (a : α) : BCond α
  | band (l r : BCond α) : BCond α
  | bor (l r : BCond α) : BCond α
  | bnot (c : BCond α) : BCond α
deriving DecidableEq, Repr

variable {α : Type} [DecidableEq α]

/-- Modelled from the spec: `mk_not`; double negation collapses (§4.2). -/
def mk_not : BCond α → BCond α
  | .bnot c => c
  | c => .bnot c

/-- Modelled from the spec: `mk_and`; `true` is the unit and `false`
annihilates (§4.2). -/
def mk_and (a b : BCond α) : BCond α :=
  if a = .tru then b
  else if b = .tru then a
  else if a = .fls ∨ b = .fls then .fls
  else .band a b

/-- Modelled from the spec: `mk_or`; `false` is the unit and `true`
annihilates (§4.2). -/
def mk_or (a b : BCond α) : BCond α :=
  if a = .fls then b
  else if b = .fls then a
  else if a = .tru ∨ b = .tru then .tru
  else .bor a b

/-- Modelled from the spec: `mk_or_from_iter`; the empty or-fold yields
`false` (§4.2). -/
def mk_or_from_iter (l : List (BCond α)) : BCond α :=
  l.foldl mk_or .fls

/-- Modelled from the spec: `mk_and_from_iter` (§4.2). -/
def mk_and_from_iter (l : List (BCond α)) : BCond α :=
  l.foldl mk_and .tru

/-! ### AST model and CFG nodes (from `mod.rs`) -/

/-- `LoopType` from `mod.rs`. -/
inductive LoopType (α : Type) : Type
  | PreChecked (c : BCond α) : LoopType α
  | PostChecked (c : BCond α) : LoopType α
  | Endless : LoopType α

/-- `AstNode` from `mod.rs`; `ValueSet` is `()` in the source. -/
inductive AstNode (β ν α : Type) : Type
  | BasicBlock (b : β) : AstNode β ν α
  | Seq (s : List (AstNode β ν α)) : AstNode β ν α
  | Cond (c : BCond α) (t : AstNode β ν α) (e : Option (AstNode β ν α)) : AstNode β ν α
  | Loop (ty : LoopType α) (body : AstNode β ν α) : AstNode β ν α
  | Switch (v : ν) (cases : List (Unit × AstNode β ν α)) (dflt : AstNode β ν α) : AstNode β ν α

/-- `CfgNode` from `mod.rs`. -/
inductive CfgNode (β ν α : Type) : Type
  | Code (a : AstNode β ν α) : CfgNode β ν α
  | Condition : CfgNode β ν α
  | Dummy (tag : String) : CfgNode β ν α

/-- `AstContext` operations (trait in `ast_context.rs`, not in src).
Modelled from the spec: the caller-supplied collaborator mints fresh
variables, equality atoms, assignment blocks and `break` blocks (§4.4);
every operation may update the context state `σ` (they take `&mut self`). -/
structure AstCtx (σ β ν α : Type) : Type where
  mk_fresh_var : σ → ν × σ
  mk_cond_equals : σ → ν → Nat → α × σ
  mk_var_assign : σ → ν → Nat → β × σ
  mk_break : σ → β × σ

/-- The `StringAst` context from `tests.rs`: state is `var_count`. -/
def stringAst : AstCtx Nat String String String where
  mk_fresh_var := fun n => ("i_" ++ toString n, n + 1)
  mk_cond_equals := fun s v k => (v ++ " == " ++ toString k, s)
  mk_var_assign := fun s v k => (v ++ " = " ++ toString k, s)
  mk_break := fun s => ("break", s)

/-! ### Graph representation

The engine operates on a `petgraph::stable_graph::StableDiGraph`.  We embed
it as explicit node and edge association lists with monotonically increasing
indices (the engine relies on indices being stable under removal of other
nodes; it never relies on index reuse). -/

/-- A directed edge: identifier, source, target, optional guard weight. -/
structure Edge (α : Type) : Type where
  eid : Nat
  src : Nat
  tgt : Nat
  w : Option (BCond α)
deriving DecidableEq, Repr

/-- The graph part of `ControlFlowGraph`: stable node/edge tables. -/
structure Graph (β ν α : Type) : Type where
  nodes : List (Nat × CfgNode β ν α)
  edges : List (Edge α)
  nextN : Nat
  nextE : Nat

variable {β ν σ : Type}

/-- `StableDiGraph::add_node`. -/
def addNode (g : Graph β ν α) (p : CfgNode β ν α) : Graph β ν α × Nat :=
  ({ g with nodes := g.nodes ++ [(g.nextN, p)], nextN := g.nextN + 1 }, g.nextN)

/-- `StableDiGraph::add_edge` (weight is the optional guard). -/
def addEdge (g : Graph β ν α) (s t : Nat) (w : Option (BCond α)) : Graph β ν α :=
  { g with edges := g.edges ++ [⟨g.nextE, s, t, w⟩], nextE := g.nextE + 1 }

/-- Payload lookup, `&graph[n]` as an `Option`. -/
def payload (g : Graph β ν α) (n : Nat) : Option (CfgNode β ν α) :=
  (g.nodes.find? (fun p => p.1 = n)).map (·.2)

/-- `graph[n] = p` (in-place payload replacement). -/
def setPayload (g : Graph β ν α) (n : Nat) (p : CfgNode β ν α) : Graph β ν α :=
  { g with nodes := g.nodes.map (fun q => if q.1 = n then (q.1, p) else q) }

/-- `StableDiGraph::remove_node`: removes the node and its incident edges. -/
def removeNode (g : Graph β ν α) (n : Nat) : Graph β ν α :=
  { g with nodes := g.nodes.filter (fun p => p.1 ≠ n),
           edges := g.edges.filter (fun e => e.src ≠ n ∧ e.tgt ≠ n) }

/-- Modelled from the spec: `graph_utils::retarget_edge` changes an edge's
destination preserving its weight (§4.3); `graph_utils` is not in src. -/
def retarget_edge (g : Graph β ν α) (eid : Nat) (t : Nat) : Graph β ν α :=
  { g with edges := g.edges.map (fun e => if e.eid = eid then { e with tgt := t } else e) }

/-- Outgoing edges of `n`, in edge-table order. -/
def edgesFrom (g : Graph β ν α) (n : Nat) : List (Edge α) :=
  g.edges.filter (fun e => e.src = n)

/-- Incoming edges of `n` (`edges_directed(n, Incoming)`), in edge-table
order. -/
def edgesInto (g : Graph β ν α) (n : Nat) : List (Edge α) :=
  g.edges.filter (fun e => e.tgt = n)

/-- Successor node indices of `n`. -/
def neighborsOf (g : Graph β ν α) (n : Nat) : List Nat :=
  (edgesFrom g n).map (·.tgt)

/-! ### Node sets

`IxBitSet` iterates in ascending index order; we embed node sets as sorted
duplicate-free lists of indices. -/

/-- Sorted duplicate-free insertion. -/
def sortedInsert (n : Nat) : List Nat → List Nat
  | [] => [n]
  | m :: rest =>
    if n < m then n :: m :: rest
    else if n = m then m :: rest
    else m :: sortedInsert n rest

/-- Normalize a list of indices into ascending duplicate-free order
(`IxBitSet::from_iter` iteration order). -/
def sortNS (l : List Nat) : List Nat :=
  l.foldr sortedInsert []

/-- Association-list lookup keyed by node index (`HashMap` reads). -/
def alookup {A : Type} (l : List (Nat × A)) (n : Nat) : Option A :=
  (l.find? (fun p => p.1 = n)).map (·.2)

/-! ### Graph utilities

Modelled from the spec (§4.3); the `graph_utils` module is not in src.
The depth-first search classifies edges and reports finish events; recursion
is bounded by an explicit fuel, which is always instantiated large enough
for the graphs at hand. -/

/-- State of the depth-first search: nodes on the stack (`gray`), finished
nodes (`black`), the back edges discovered so far, and the finish order. -/
structure DfsSt (α : Type) : Type where
  gray : List Nat
  black : List Nat
  backedges : List (Edge α)
  post : List Nat

/-- Modelled from the spec: `graph_utils::depth_first_search` restricted to
the events the engine uses (`BackEdge`, `Finish`).  An edge whose target is
on the recursion stack is a back edge; a node is appended to `post` when its
subtree is complete (PO-DFS order). -/
def dfsVisit (g : Graph β ν α) : Nat → Nat → DfsSt α → DfsSt α
  | 0, _, st => st
  | fuel + 1, n, st =>
    if n ∈ st.gray ∨ n ∈ st.black then st
    else
      let st1 : DfsSt α := { st with gray := n :: st.gray }
      let st2 := (edgesFrom g n).foldl
        (fun acc e =>
          if e.tgt ∈ acc.gray then { acc with backedges := acc.backedges ++ [e] }
          else if e.tgt ∈ acc.black then acc
          else dfsVisit g fuel e.tgt acc)
        st1
      { st2 with gray := st2.gray.erase n, black := n :: st2.black,
                 post := st2.post ++ [n] }

/-- Run the DFS from `start` with sufficient fuel. -/
def dfsRun (g : Graph β ν α) (start : Nat) : DfsSt α :=
  dfsVisit g (g.nodes.length + 1) start ⟨[], [], [], []⟩

/-- Fuel that bounds any worklist traversal of `g`. -/
def fuelOf (g : Graph β ν α) : Nat :=
  g.nodes.length + g.edges.length + 2

/-- Worklist reachability: nodes reachable from the stack without expanding
members of `stop` (they are visited but their out-edges are ignored). -/
def reachAux (g : Graph β ν α) (stop : List Nat) :
    Nat → List Nat → List Nat → List Nat
  | 0, _, vis => vis
  | _ + 1, [], vis => vis
  | fuel + 1, n :: rest, vis =>
    if n ∈ vis then reachAux g stop fuel rest vis
    else if n ∈ stop then reachAux g stop fuel rest (vis ++ [n])
    else reachAux g stop fuel (neighborsOf g n ++ rest) (vis ++ [n])

/-- Nodes reachable from `start`, stopping at (but including) `stop`. -/
def reachFrom (g : Graph β ν α) (start : Nat) (stop : List Nat) : List Nat :=
  reachAux g stop (fuelOf g) [start] []

/-- Backward worklist closure over an explicit edge list. -/
def coreachAux (es : List (Edge α)) :
    Nat → List Nat → List Nat → List Nat
  | 0, _, vis => vis
  | _ + 1, [], vis => vis
  | fuel + 1, n :: rest, vis =>
    if n ∈ vis then coreachAux es fuel rest vis
    else coreachAux es fuel
      ((es.filter (fun e => e.tgt = n)).map (·.src) ++ rest) (vis ++ [n])

/-- Modelled from the spec: `graph_utils::slice(start, end_set)` returns the
nodes lying on some path from `start` to a member of `end_set`, the edges
between them, and a topological order of the slice that starts with `start`
and ends with a sink (§4.3).  Paths are explored without expanding end-set
members; the order is the reverse post-order of a DFS over the slice
edges. -/
def slice (g : Graph β ν α) (start : Nat) (endSet : List Nat) :
    List Nat × List Nat × List Nat :=
  let r := reachFrom g start endSet
  let er := g.edges.filter (fun e => e.src ∈ r ∧ e.src ∉ endSet ∧ e.tgt ∈ r)
  let co := coreachAux er (fuelOf g) (endSet.filter (· ∈ r)) []
  let sliceN := sortNS co
  let sliceE := er.filter (fun e => e.src ∈ sliceN ∧ e.tgt ∈ sliceN)
  let gs : Graph β ν α :=
    { nodes := sliceN.map (fun n => (n, CfgNode.Condition)), edges := sliceE,
      nextN := 0, nextE := 0 }
  let topo := (dfsRun gs start).post.reverse
  (sliceN, sliceE.map (·.eid), topo)

/-- Modelled from the spec: strict successors of a node set `s` — targets
outside `s` of edges whose source is in `s` (§4.3); ascending order. -/
def strict_successors_of_set (g : Graph β ν α) (s : List Nat) : List Nat :=
  sortNS (((g.edges.filter (fun e => e.src ∈ s ∧ e.tgt ∉ s)).map (·.tgt)))

/-- One round of the iterative dominator-set computation: `dom(v)` becomes
`{v} ∪ ⋂ dom(p)` over the predecessors of `v` inside the reachable set. -/
def domRound (g : Graph β ν α) (rch : List Nat) (entry : Nat)
    (dom : List (Nat × List Nat)) : List (Nat × List Nat) :=
  rch.map (fun v =>
    if v = entry then (v, [entry])
    else
      let preds := ((edgesInto g v).map (·.src)).filter (· ∈ rch)
      let inter := preds.foldl
        (fun acc p => acc.filter (· ∈ (alookup dom p).getD rch)) rch
      (v, sortedInsert v inter))

/-- Iterate the dominator rounds to a fixpoint (fuel-bounded). -/
def domIter (g : Graph β ν α) (rch : List Nat) (entry : Nat) :
    Nat → List (Nat × List Nat) → List (Nat × List Nat)
  | 0, dom => dom
  | fuel + 1, dom =>
    let dom2 := domRound g rch entry dom
    if dom2 = dom then dom else domIter g rch entry fuel dom2

/-- Modelled from the spec: dominator sets over the nodes reachable from
`entry` (§4.3 Dominance). -/
def domSets (g : Graph β ν α) (entry : Nat) : List (Nat × List Nat) :=
  let rch := sortNS (reachFrom g entry [])
  domIter g rch entry (rch.length * rch.length + 2)
    (rch.map (fun v => (v, rch)))

/-- Modelled from the spec: `graph_utils::dominated_by(root, n)` — the set
of nodes whose every path from `root` passes through `n` (§4.3). -/
def dominated_by (g : Graph β ν α) (root n : Nat) : List Nat :=
  let dom := domSets g root
  sortNS ((dom.filter (fun p => n ∈ p.2)).map (·.1))

/-- Modelled from the spec: nearest common dominator of a node set — the
deepest node dominating every member (§4.3); depth measured by the size of
its own dominator set. -/
def nearest_common_dominator (g : Graph β ν α) (root : Nat) (s : List Nat) :
    Nat :=
  let dom := domSets g root
  let common := (dom.map (·.1)).filter
    (fun d => s.all (fun m => d ∈ (alookup dom m).getD []))
  let best := common.foldl
    (fun acc d =>
      match acc with
      | none => some d
      | some b =>
        if ((alookup dom d).getD []).length > ((alookup dom b).getD []).length
        then some d else acc)
    none
  best.getD root

/-! ### The structuring engine (`mod.rs`) -/

/-- The engine state: the mutable graph, the entry node, and the
caller-supplied AST-context state (`ControlFlowGraph` minus the stateless
condition context). -/
structure St (σ β ν α : Type) : Type where
  g : Graph β ν α
  entry : Nat
  actx : σ

/-- `reaching_conditions` from `mod.rs`: computes the reaching condition for
every node of the slice from `start` to `end_set` as an or-fold over the
incoming slice edges, walking the topological order; returns the condition
map and the topological order.  `rcOps` lists the or-fold operands of one
node and `rcStep` extends the condition map by one node. -/
def rcOps (g : Graph β ν α) (sliceE : List Nat)
    (ret : List (Nat × BCond α)) (m : Nat) : List (BCond α) :=
  ((edgesInto g m).filter (fun e => e.eid ∈ sliceE)).map
    (fun e =>
      match e.w with
      | some c => mk_and ((alookup ret e.src).getD .tru) c
      | none => (alookup ret e.src).getD .tru)

def rcStep (g : Graph β ν α) (sliceE : List Nat)
    (ret : List (Nat × BCond α)) (m : Nat) : List (Nat × BCond α) :=
  (m, mk_or_from_iter (rcOps g sliceE ret m)) :: ret

def reaching_conditions (g : Graph β ν α) (start : Nat) (endSet : List Nat) :
    List (Nat × BCond α) × List Nat :=
  let sl := slice g start endSet
  let sliceE := sl.2.1
  let topo := sl.2.2
  ((topo.drop 1).foldl (rcStep g sliceE) [(start, .tru)], topo)

/-- `structure_acyclic_sese_region` from `mod.rs`: walks the region's
topological order (without the successor), removes each node (replacing the
header by a dummy to keep its in-edges), and emits a then-only conditional
per `Code` node, collected into a `Seq`.  `seseStep` is the per-node step of
that walk. -/
def seseStep (rc : List (Nat × BCond α)) (header : Nat)
    (acc : List (AstNode β ν α) × Graph β ν α) (m : Nat) :
    List (AstNode β ν α) × Graph β ν α :=
  let pay := payload acc.2 m
  let g2 := if m = header
    then setPayload acc.2 header (.Dummy "replaced header")
    else removeNode acc.2 m
  match pay with
  | some (.Code ast) =>
    (acc.1 ++ [AstNode.Cond ((alookup rc m).getD .tru) ast none], g2)
  | _ => (acc.1, g2)

/-- `structure_acyclic_sese_region` as a fold of `seseStep` over the
region's topological order without the successor. -/
def structure_acyclic_sese_region (g : Graph β ν α) (header successor : Nat) :
    AstNode β ν α × Graph β ν α :=
  let rcTopo := reaching_conditions g header [successor]
  let rc := rcTopo.1
  let order := rcTopo.2.dropLast
  let res := order.foldl (seseStep rc header) ([], g)
  (AstNode.Seq res.1, res.2)

/-- The entry map of `funnel_abnormal_entries`: for each loop node (ascending
order), its in-edges originating outside the loop. -/
def entryPairsOf (g : Graph β ν α) (loopN : List Nat) :
    List (Nat × List Nat) :=
  loopN.filterMap (fun m =>
    let es := ((edgesInto g m).filter (fun e => e.src ∉ loopN)).map (·.eid)
    if es.isEmpty then none else some (m, es))

/-- The keys of the abnormal entry map at the point the engine iterates it.
The Rust source iterates a `std::collections::HashMap`, whose iteration
order is unspecified and varies between program runs; the engine is
therefore parameterized by that order (see `structure_whole`). -/
def abnKeysAt (g : Graph β ν α) (entry header : Nat) (loopN : List Nat) :
    List Nat :=
  if header = entry then []
  else ((entryPairsOf g loopN).filter (fun p => p.1 ≠ header)).map (·.1)

/-- The accumulator of the cascade loop of `funnel_abnormal_entries`: the
graph, the AST-context state, and the `prev_cascade_node`,
`prev_entry_target`, `prev_out_cond`, `prev_entry_num` locals. -/
structure CascAcc (σ β ν α : Type) : Type where
  g : Graph β ν α
  a : σ
  prevCasc : Nat
  prevTgt : Nat
  prevOut : Option (BCond α)
  prevNum : Nat

/-- One iteration of the cascade loop: make the condition node for the
previous entry target and the reset node for the current one. -/
def cascStep (C : AstCtx σ β ν α) (sv : ν) (acc : CascAcc σ β ν α)
    (pr : Nat × Nat × List Nat) : CascAcc σ β ν α :=
  let ce := C.mk_cond_equals acc.a sv acc.prevNum
  let condEq : BCond α := .simple ce.1
  let an := addNode acc.g .Condition
  let g1 := addEdge an.1 acc.prevCasc an.2 acc.prevOut
  let g2 := addEdge g1 an.2 acc.prevTgt (some condEq)
  let va := C.mk_var_assign ce.2 sv 0
  let rn := addNode g2 (.Code (.BasicBlock va.1))
  let g3 := addEdge rn.1 rn.2 pr.2.1 none
  ⟨g3, va.2, an.2, rn.2, some (mk_not condEq), pr.1⟩

/-- The abnormal entry map in the run's iteration order `okeys`. -/
def abnOrdOf (g : Graph β ν α) (header : Nat) (loopN okeys : List Nat) :
    List (Nat × List Nat) :=
  okeys.filterMap (fun k =>
    ((entryPairsOf g loopN).filter (fun p => p.1 ≠ header)).find?
      (fun p => p.1 = k))

/-- One entry redirection: mint the `v := tag` assignment node, connect it
to the new header, and retarget the entry edges to it. -/
def redirectStep (C : AstCtx σ β ν α) (sv : ν) (newHeader : Nat)
    (acc : Graph β ν α × σ) (pr : Nat × List Nat) : Graph β ν α × σ :=
  let va := C.mk_var_assign acc.2 sv pr.1
  let an := addNode acc.1 (.Code (.BasicBlock va.1))
  let g1 := addEdge an.1 an.2 newHeader none
  let g2 := pr.2.foldl (fun g eid => retarget_edge g eid an.2) g1
  (g2, va.2)

/-- The condition-cascade loop of `funnel_abnormal_entries` (the loop inside
its `new_header` block): add the dummy preheader and fold `cascStep` over the
enumerated abnormal-entry map, starting from
`prev_cascade_node = dummy_preheader`, `prev_entry_target = header`,
`prev_out_cond = None`, `prev_entry_num = 0`. -/
def cascOf (C : AstCtx σ β ν α) (st : St σ β ν α) (header : Nat)
    (loopN okeys : List Nat) : CascAcc σ β ν α :=
  let fv := C.mk_fresh_var st.actx
  let gp := addNode st.g (.Dummy "loop preheader")
  ((abnOrdOf st.g header loopN okeys).enumFrom 1).foldl (cascStep C fv.1)
    ⟨gp.1, fv.2, gp.2, header, none, 0⟩

/-- The cascade graph after the final fallthrough edge
`add_edge(prev_cascade_node, prev_entry_target, prev_out_cond)`. -/
def cascGraphOf (C : AstCtx σ β ν α) (st : St σ β ν α) (header : Nat)
    (loopN okeys : List Nat) : Graph β ν α :=
  let casc := cascOf C st header loopN okeys
  addEdge casc.g casc.prevCasc casc.prevTgt casc.prevOut

/-- The new loop header: the first successor of the dummy preheader
(node index `st.g.nextN`) in the finished cascade graph. -/
def newHeaderOf (C : AstCtx σ β ν α) (st : St σ β ν α) (header : Nat)
    (loopN okeys : List Nat) : Nat :=
  ((neighborsOf (cascGraphOf C st header loopN okeys) st.g.nextN).head?).getD 0

/-- The entry-edge groups redirected by `funnel_abnormal_entries`: the header
entries under dispatch value 0, then the abnormal entries in map order. -/
def redirectListOf (g : Graph β ν α) (header : Nat) (loopN okeys : List Nat) :
    List (Nat × List Nat) :=
  (0, (((entryPairsOf g loopN).find? (fun p => p.1 = header)).map (·.2)).getD [])
    :: ((abnOrdOf g header loopN okeys).enumFrom 1).map (fun pr => (pr.1, pr.2.2))

/-- The main branch of `funnel_abnormal_entries` (reached when the header is
not the entry and abnormal entries exist): build the cascade, drop the dummy
preheader, then redirect every entry-edge group through a dispatch
assignment. -/
def funnelMain (C : AstCtx σ β ν α) (st : St σ β ν α)
    (header : Nat) (loopN : List Nat) (okeys : List Nat) :
    St σ β ν α × Nat :=
  let sv := (C.mk_fresh_var st.actx).1
  let casc := cascOf C st header loopN okeys
  let newHeader := newHeaderOf C st header loopN okeys
  let gE := removeNode (cascGraphOf C st header loopN okeys) st.g.nextN
  let redirect := (redirectListOf st.g header loopN okeys).foldl
    (redirectStep C sv newHeader) (gE, casc.a)
  ({ st with g := redirect.1, actx := redirect.2 }, newHeader)

/-- `funnel_abnormal_entries` from `mod.rs`.  `okeys` is the order in which
the run's `HashMap` yields the abnormal entry targets (see `abnKeysAt`);
builds the condition cascade and redirects all entries through dispatch
assignments.  Returns the new loop header. -/
def funnel_abnormal_entries (C : AstCtx σ β ν α) (st : St σ β ν α)
    (header : Nat) (loopN : List Nat) (okeys : List Nat) :
    St σ β ν α × Nat :=
  if header = st.entry then (st, header) else
  let abn := (entryPairsOf st.g loopN).filter (fun p => p.1 ≠ header)
  if abn.isEmpty then (st, header) else
  funnelMain C st header loopN okeys

/-- The inner scan of `refine_loop`: absorb every current successor whose
predecessors all lie inside the loop, collecting the freshly exposed
successors. -/
def refineScan (g : Graph β ν α) (succ : List Nat) (loopN : List Nat) :
    List Nat × List Nat :=
  succ.foldl
    (fun (acc : List Nat × List Nat) n =>
      if ((edgesInto g n).map (·.src)).all (· ∈ acc.1) then
        let ln2 := sortedInsert n acc.1
        (ln2, acc.2 ++ (neighborsOf g n).filter (fun u => u ∉ ln2))
      else acc)
    (loopN, [])

/-- `refine_loop` from `mod.rs`: iterate the scan until one successor
remains or no growth occurred (fuel-bounded). -/
def refineLoopAux (g : Graph β ν α) :
    Nat → List Nat → List Nat → List Nat × List Nat
  | 0, ln, sn => (ln, sn)
  | fuel + 1, ln, sn =>
    if sn.length ≤ 1 then (ln, sn)
    else
      let sc := refineScan g sn ln
      let sn2 := sn.filter (fun m => m ∉ sc.1)
      if sc.2.isEmpty then (sc.1, sn2)
      else refineLoopAux g fuel sc.1 (sortNS (sn2 ++ sc.2))

/-- `refine_loop` entry point. -/
def refine_loop (g : Graph β ν α) (loopN succN : List Nat) :
    List Nat × List Nat :=
  refineLoopAux g (g.nodes.length + 2) loopN succN

/-- One break insertion: mint a `Code` node holding `mk_break()`, retarget
the exit edge `eid` to it, and connect it to `loop_continue` under the
guard `false`. -/
def breakFoldStep (C : AstCtx σ β ν α) (lc : Nat)
    (acc : Graph β ν α × σ) (eid : Nat) : Graph β ν α × σ :=
  let mb := C.mk_break acc.2
  let bn := addNode acc.1 (.Code (.BasicBlock mb.1))
  let g1 := retarget_edge bn.1 eid bn.2
  let g2 := addEdge g1 bn.2 lc (some .fls)
  (g2, mb.2)

/-- The break-insertion part of `funnel_abnormal_exits`: applies
`breakFoldStep` to every edge leaving the loop body. -/
def insertBreaks (C : AstCtx σ β ν α) (g : Graph β ν α) (a : σ)
    (loopN : List Nat) (lc : Nat) : Graph β ν α × σ :=
  let exitEdges :=
    (g.edges.filter (fun e => e.src ∈ loopN ∧ e.tgt ∉ loopN)).map (·.eid)
  exitEdges.foldl (breakFoldStep C lc) (g, a)

/-- One step of the pre-successor cascade of `funnel_abnormal_exits`: make
the condition node for the abnormal successor `t`, guarded by its reaching
condition. -/
def exitsCascStep (rc : List (Nat × BCond α))
    (acc : Graph β ν α × Nat × Option (BCond α)) (t : Nat) :
    Graph β ν α × Nat × Option (BCond α) :=
  let rcT := (alookup rc t).getD .fls
  let cn := addNode acc.1 .Condition
  let g1 := addEdge cn.1 acc.2.1 cn.2 acc.2.2
  let g2 := addEdge g1 cn.2 t (some rcT)
  (g2, cn.2, some (mk_not rcT))

/-- The pre-successor funnelling of `funnel_abnormal_exits` (everything
before break insertion): when abnormal successors exist, build the condition
cascade from a dummy pre-successor over their reaching conditions and drop
the dummy. -/
def exitsPrep (C : AstCtx σ β ν α) (st : St σ β ν α)
    (loopN : List Nat) (finalSucc : Nat) (abnSucc : List Nat) :
    St σ β ν α × Nat :=
  if abnSucc.isEmpty then (st, finalSucc)
  else
    let srcs := sortNS
      (((abnSucc.flatMap (fun m => (edgesInto st.g m).map (·.src))).filter
        (· ∈ loopN)))
    let ncd := nearest_common_dominator st.g st.entry srcs
    let rc := (reaching_conditions st.g ncd abnSucc).1
    let dp := addNode st.g (.Dummy "loop presuccessor")
    let casc := abnSucc.foldl (exitsCascStep rc) (dp.1, dp.2, none)
    let g3 := addEdge casc.1 casc.2.1 finalSucc casc.2.2
    let ns := ((neighborsOf g3 dp.2).head?).getD 0
    let g4 := removeNode g3 dp.2
    ({ st with g := g4 }, ns)

/-- `funnel_abnormal_exits` from `mod.rs`: builds the pre-successor cascade
over the abnormal successors' reaching conditions, then replaces every loop
exit edge by a `break` node.  Returns the new loop successor. -/
def funnel_abnormal_exits (C : AstCtx σ β ν α) (st : St σ β ν α)
    (loopN : List Nat) (lc finalSucc : Nat) (abnSucc : List Nat) :
    St σ β ν α × Nat :=
  let stepA := exitsPrep C st loopN finalSucc abnSucc
  let br := insertBreaks C stepA.1.g stepA.1.actx loopN lc
  ({ stepA.1 with g := br.1, actx := br.2 }, stepA.2)

/-- The final-successor selection of `structure_whole`: the first element of
the PO-DFS trace contained in the successor set. -/
def finalSuccOf (trace succ : List Nat) : Option Nat :=
  trace.find? (fun m => m ∈ succ)

/-- The tail of the loop branch of `structure_whole`: reduce the
header-to-`loop_continue` region, remove `loop_continue`, install the
`Loop(Endless, body)` AST at the header, and (when present) connect the
header to the loop successor. -/
def loopFinish (st : St σ β ν α) (loopHeader lc : Nat)
    (loopSuccOpt : Option Nat) : St σ β ν α :=
  let bs := structure_acyclic_sese_region st.g loopHeader lc
  let g1 := removeNode bs.2 lc
  let g2 := setPayload g1 loopHeader (.Code (.Loop .Endless bs.1))
  let g3 := match loopSuccOpt with
    | some s => addEdge g2 loopHeader s none
    | none => g2
  { st with g := g3 }

/-- The loop-branch preamble of a PO-DFS visit: create the `loop_continue`
dummy, retarget the back edges to it, and slice out the initial loop body.
Returns the retargeted graph, `loop_continue`, and the initial loop body. -/
def loopPrep (st : St σ β ν α) (n : Nat) (latches bes : List Nat) :
    Graph β ν α × Nat × List Nat :=
  let ln := addNode st.g (.Dummy "loop continue")
  let g1 := bes.foldl (fun g eid => retarget_edge g eid ln.2) ln.1
  let iln := (slice g1 n latches).1
  (g1, ln.2, iln)

/-- The tail of the loop branch once the final successor is chosen: funnel
the abnormal exits (when a final successor exists), then finish the loop. -/
def loopMainAfter (C : AstCtx σ β ν α) (st2 : St σ β ν α)
    (loopHeader lc : Nat) (loopNodes succN : List Nat)
    (fsOpt : Option Nat) : St σ β ν α :=
  match fsOpt with
  | some fs =>
    let fx := funnel_abnormal_exits C st2 loopNodes lc fs
      (succN.filter (fun m => m ≠ fs))
    loopFinish fx.1 loopHeader lc (some fx.2)
  | none => loopFinish st2 loopHeader lc none

/-- The main part of the loop branch, after `loopPrep`: funnel abnormal
entries (iterating the abnormal entry map in order `okeys`), refine the
loop, pick the final successor from the trace, funnel abnormal exits, and
reduce the loop body. -/
def loopMain (C : AstCtx σ β ν α) (trace : List Nat) (st : St σ β ν α)
    (n lc : Nat) (iln okeys : List Nat) : St σ β ν α :=
  let fe := funnel_abnormal_entries C st n iln okeys
  let succ0 := strict_successors_of_set fe.1.g iln
  let rl := refine_loop fe.1.g iln succ0
  loopMainAfter C fe.1 fe.2 lc rl.1 rl.2 (finalSuccOf trace rl.2)

/-- The acyclic branch of a PO-DFS visit: reduce the dominated region when
it is single-exit and larger than one node. -/
def acyclicVisit (st : St σ β ν α) (n : Nat) : St σ β ν α :=
  let region := dominated_by st.g st.entry n
  if region.length > 1 then
    match strict_successors_of_set st.g region with
    | [s] =>
      let bs := structure_acyclic_sese_region st.g n s
      let g1 := setPayload bs.2 n (.Code bs.1)
      let g2 := addEdge g1 n s none
      { st with g := g2 }
    | _ => st
  else st

/-- One PO-DFS visit of `structure_whole`: the loop branch (when `n` is a
back-edge target) or the acyclic SESE branch. -/
def visit (C : AstCtx σ β ν α) (ord : List Nat → List Nat)
    (bem : Nat → Option (List Nat × List Nat)) (trace : List Nat)
    (st : St σ β ν α) (n : Nat) : St σ β ν α :=
  match bem n with
  | some (latches, bes) =>
    let pr := loopPrep st n latches bes
    loopMain C trace { st with g := pr.1 } n pr.2.1 pr.2.2
      (ord (abnKeysAt pr.1 st.entry n pr.2.2))
  | none => acyclicVisit st n

/-- The terminal reduction preamble of `structure_whole`: add the dummy
exit, collect the sinks of the graph (nodes without outgoing edges), and
connect every sink to the dummy exit. -/
def terminalPrep (st : St σ β ν α) : Graph β ν α × Nat :=
  let dn := addNode st.g (.Dummy "exit")
  let dummyExit := dn.2
  let sinks := (dn.1.nodes.map (·.1)).filter
    (fun m => (edgesFrom dn.1 m).isEmpty)
  let g2 := sinks.foldl (fun g m => addEdge g m dummyExit none) dn.1
  (g2, dummyExit)

/-- The back-edge map captured before the traversal: for a back-edge target,
its latch set and back-edge ids. -/
def backedgeMapOf (d : DfsSt α) (n : Nat) : Option (List Nat × List Nat) :=
  let es := d.backedges.filter (fun e => e.tgt = n)
  if es.isEmpty then none else some (sortNS (es.map (·.src)), es.map (·.eid))

/-- `structure_whole` from `mod.rs`: PO-DFS trace, one visit per node,
terminal reduction from the entry to the dummy exit, and removal of the two
remaining nodes.  `ord` is the iteration order of the abnormal-entry
`HashMap` of the run (see `abnKeysAt`); `swTerminal` is the terminal
reduction after the traversal. -/
def swTerminal (st : St σ β ν α) : AstNode β ν α × St σ β ν α :=
  let tp := terminalPrep st
  let bs := structure_acyclic_sese_region tp.1 st.entry tp.2
  let g1 := removeNode bs.2 tp.2
  let g2 := removeNode g1 st.entry
  (bs.1, { st with g := g2 })

def structure_whole (C : AstCtx σ β ν α) (ord : List Nat → List Nat)
    (st : St σ β ν α) : AstNode β ν α × St σ β ν α :=
  let d := dfsRun st.g st.entry
  swTerminal (d.post.foldl (visit C ord (backedgeMapOf d) d.post) st)

/-- Whether a CFG payload is a `Dummy` anchor. -/
def isDummy : CfgNode β ν α → Bool
  | .Dummy _ => true
  | _ => false

/-- Every node of the graph is `Code` or `Condition` (invariant I1). -/
def noDummy (g : Graph β ν α) : Prop :=
  ∀ p ∈ g.nodes, isDummy p.2 = false

/-- Every node of the graph is `Code` or `Condition`, except possibly the
listed anchors (used to track the transient `Dummy` nodes of a step). -/
def noDummyExcept (l : List Nat) (g : Graph β ν α) : Prop :=
  ∀ p ∈ g.nodes, isDummy p.2 = false ∨ p.1 ∈ l

/-! ### Projections used to compare ASTs structurally -/

/-- The basic-block payloads of an AST in left-to-right order
(fuel-bounded recursion so that it evaluates by reduction). -/
def blocksOf : Nat → AstNode β ν α → List β
  | 0, _ => []
  | _ + 1, .BasicBlock b => [b]
  | f + 1, .Seq s => s.flatMap (blocksOf f)
  | f + 1, .Cond _ t e =>
    blocksOf f t ++ (match e with | some x => blocksOf f x | none => [])
  | f + 1, .Loop _ b => blocksOf f b
  | f + 1, .Switch _ cs d => cs.flatMap (fun p => blocksOf f p.2) ++ blocksOf f d

/-- The number of `Cond` nodes of an AST (fuel-bounded). -/
def condCount : Nat → AstNode β ν α → Nat
  | 0, _ => 0
  | _ + 1, .BasicBlock _ => 0
  | f + 1, .Seq s => (s.map (condCount f)).sum
  | f + 1, .Cond _ t e =>
    1 + condCount f t + (match e with | some x => condCount f x | none => 0)
  | f + 1, .Loop _ b => condCount f b
  | f + 1, .Switch _ cs d =>
    (cs.map (fun p => condCount f p.2)).sum + condCount f d

/-! ### Basic lemmas about the graph operations -/

theorem mem_edges_addEdge {g : Graph β ν α} {e : Edge α} {s t : Nat}
    {w : Option (BCond α)} (h : e ∈ g.edges) : e ∈ (addEdge g s t w).edges := by
  simp only [addEdge, List.mem_append]
  exact Or.inl h

theorem self_mem_edges_addEdge (g : Graph β ν α) (s t : Nat)
    (w : Option (BCond α)) :
    (⟨g.nextE, s, t, w⟩ : Edge α) ∈ (addEdge g s t w).edges := by
  simp [addEdge]

theorem mem_edges_addNode {g : Graph β ν α} {e : Edge α}
    {p : CfgNode β ν α} (h : e ∈ g.edges) : e ∈ (addNode g p).1.edges := h

theorem edges_removeNode_subset (g : Graph β ν α) (n : Nat) :
    (removeNode g n).edges ⊆ g.edges := by
  simp only [removeNode]
  exact fun e he => (List.mem_filter.mp he).1

theorem edges_setPayload (g : Graph β ν α) (n : Nat) (p : CfgNode β ν α) :
    (setPayload g n p).edges = g.edges := rfl

/-! ### Claim C10: the dummy exit is collected as a sink -/

theorem mem_foldl_addEdge {d : Nat} (l : List Nat) (g : Graph β ν α)
    {e : Edge α} (h : e ∈ g.edges) :
    e ∈ (l.foldl (fun g m => addEdge g m d none) g).edges := by
  induction l generalizing g with
  | nil => exact h
  | cons a tl ih => exact ih _ (mem_edges_addEdge h)

theorem exists_selfEdge_foldl_addEdge {d : Nat} (l : List Nat)
    (g : Graph β ν α) (h : d ∈ l) :
    ∃ eid, (⟨eid, d, d, none⟩ : Edge α) ∈
      (l.foldl (fun g m => addEdge g m d none) g).edges := by
  induction l generalizing g with
  | nil => cases h
  | cons a tl ih =>
    rcases List.mem_cons.mp h with h1 | h1
    · subst h1
      exact ⟨g.nextE, mem_foldl_addEdge tl _ (self_mem_edges_addEdge g d d none)⟩
    · exact ih _ h1

/-- Claim C10: in the terminal-reduction step of `structure_whole`, the fresh
`dummy_exit` node has no outgoing edges when the sinks are collected, hence
it is itself collected as a sink, and an unconditional self-edge
`dummy_exit → dummy_exit` is present in the graph handed to the final SESE
reduction. -/
theorem c10_dummy_exit_self_edge (st : St σ β ν α)
    (h : ∀ e ∈ st.g.edges, e.src ≠ st.g.nextN) :
    (terminalPrep st).2 = st.g.nextN ∧
    (terminalPrep st).2 ∈
      (((addNode st.g (.Dummy "exit")).1.nodes.map (·.1)).filter
        (fun m => (edgesFrom (addNode st.g (.Dummy "exit")).1 m).isEmpty)) ∧
    ∃ eid, (⟨eid, (terminalPrep st).2, (terminalPrep st).2, none⟩ : Edge α) ∈
      (terminalPrep st).1.edges := by
  have hsink : (edgesFrom (addNode st.g (.Dummy "exit")).1 st.g.nextN).isEmpty := by
    simp only [edgesFrom, addNode, List.isEmpty_iff, List.filter_eq_nil_iff]
    intro e he
    simp only [decide_eq_true_eq]
    exact h e he
  refine ⟨rfl, ?_, ?_⟩
  · simp only [terminalPrep, addNode, List.mem_filter]
    constructor
    · simp
    · exact hsink
  · show ∃ eid, _ ∈ ((((addNode st.g (.Dummy "exit")).1.nodes.map (·.1)).filter
      (fun m => (edgesFrom (addNode st.g (.Dummy "exit")).1 m).isEmpty)).foldl
        (fun g m => addEdge g m st.g.nextN none) (addNode st.g (.Dummy "exit")).1).edges
    apply exists_selfEdge_foldl_addEdge
    simp only [List.mem_filter]
    constructor
    · simp [addNode]
    · exact hsink

/-! ### Claim C6: final-successor selection and endless loops -/

theorem seseFold_edges_subset (rc : List (Nat × BCond α)) (header : Nat)
    (order : List Nat) (acc : List (AstNode β ν α) × Graph β ν α) :
    (order.foldl (seseStep rc header) acc).2.edges ⊆ acc.2.edges := by
  induction order generalizing acc with
  | nil => exact fun e he => he
  | cons m tl ih =>
    refine fun e he => ?_
    have h2 := ih (seseStep rc header acc m) he
    have h3 : (seseStep rc header acc m).2.edges ⊆ acc.2.edges := by
      simp only [seseStep]
      split
      · split
        · intro x hx; exact hx
        · exact edges_removeNode_subset _ _
      · split
        · intro x hx; exact hx
        · exact edges_removeNode_subset _ _
    exact h3 h2

theorem sese_edges_subset (g : Graph β ν α) (h s : Nat) :
    (structure_acyclic_sese_region g h s).2.edges ⊆ g.edges := by
  simp only [structure_acyclic_sese_region]
  exact seseFold_edges_subset _ _ _ _

/-- Claim C6: the loop successor chosen by `structure_whole` is the first
element of the PO-DFS trace (smallest PO index, i.e. earliest finish) that
is a remaining successor; and when no successor is found, the loop is
finished endlessly — `loopFinish` with no successor adds no edge at all, in
particular no outgoing edge from the loop header (its graph's edges are a
subset of the pre-reduction edges). -/
theorem c6_final_succ_selection :
    (∀ (trace succ : List Nat) (s : Nat), finalSuccOf trace succ = some s →
      s ∈ succ ∧ s ∈ trace ∧
      ∀ t ∈ succ, t ∈ trace → trace.indexOf s ≤ trace.indexOf t) ∧
    (∀ (st : St σ β ν α) (lh lc : Nat),
      (loopFinish st lh lc none).g.edges ⊆ st.g.edges) := by
  constructor
  · intro trace succ s hfind
    induction trace with
    | nil => cases hfind
    | cons a tl ih =>
      by_cases ha : a ∈ succ
      · have hEq : finalSuccOf (a :: tl) succ = some a := by
          simp only [finalSuccOf]
          exact List.find?_cons_of_pos _ (by simp [ha])
        have : s = a := Option.some_inj.mp (hEq.symm.trans hfind).symm
        subst this
        refine ⟨ha, List.mem_cons_self _ _, ?_⟩
        intro t ht htr
        simp [List.indexOf_cons_self]
      · have hfind2 : finalSuccOf tl succ = some s := by
          have h0 := hfind
          simp only [finalSuccOf] at h0 ⊢
          rwa [List.find?_cons_of_neg _ (by simp [ha])] at h0
        obtain ⟨h1, h2, h3⟩ := ih hfind2
        have hsa : s ≠ a := fun h => ha (h ▸ h1)
        refine ⟨h1, List.mem_cons_of_mem _ h2, ?_⟩
        intro t ht htr
        have hta : t ≠ a := fun h => ha (h ▸ ht)
        rcases List.mem_cons.mp htr with h | h
        · exact absurd h hta
        · rw [List.indexOf_cons_ne _ (fun hh => hsa hh.symm),
              List.indexOf_cons_ne _ (fun hh => hta hh.symm)]
          exact Nat.succ_le_succ (h3 t ht h)
  · intro st lh lc
    simp only [loopFinish, edges_setPayload]
    intro e he
    exact sese_edges_subset st.g lh lc (edges_removeNode_subset _ lc he)

/-! ### Concrete instances used by witnesses and counterexamples -/

/-- A CFG holding a single `Code` node (the re-packaging of a previous
structuring result described by P6). -/
def singleCodeSt (X : AstNode β ν α) (s : σ) : St σ β ν α :=
  { g := { nodes := [(0, .Code X)], edges := [], nextN := 1, nextE := 0 },
    entry := 0, actx := s }

/-- The result of a prior structuring run on a one-block CFG. -/
def priorAst : AstNode String String String :=
  (structure_whole stringAst id (singleCodeSt (.BasicBlock "x") 0)).1

/-- A one-block CFG state over the `StringAst` context. -/
def stOne : St Nat String String String :=
  singleCodeSt (.BasicBlock "x") 0

/-- A `Condition` entry guarding three entries into a three-node natural
loop `l1 → l2 → l3 → l1`: the entry into `l2` and `l3` are abnormal, so the
abnormal-entry map has two keys. -/
def stAbnEntry : St Nat String String String :=
  { g := { nodes := [(0, .Condition), (1, .Code (.BasicBlock "l1")),
                     (2, .Code (.BasicBlock "l2")), (3, .Code (.BasicBlock "l3"))],
           edges := [⟨0, 0, 1, some (.simple "a")⟩, ⟨1, 0, 2, some (.simple "b")⟩,
                     ⟨2, 0, 3, some (.simple "c")⟩, ⟨3, 1, 2, none⟩,
                     ⟨4, 2, 3, none⟩, ⟨5, 3, 1, none⟩],
           nextN := 4, nextE := 6 },
    entry := 0, actx := 0 }

/-- The acyclic diamond of scenario S5. -/
def gDia : Graph String String String :=
  { nodes := [(0, .Condition), (1, .Code (.BasicBlock "t")),
              (2, .Code (.BasicBlock "e")), (3, .Code (.BasicBlock "j"))],
    edges := [⟨0, 0, 1, some (.simple "A")⟩,
              ⟨1, 0, 2, some (.bnot (.simple "A"))⟩,
              ⟨2, 1, 3, none⟩, ⟨3, 2, 3, none⟩],
    nextN := 4, nextE := 4 }

/-- A CFG with entry 0, a loop `{1, 2}` headed at 1, and one abnormal entry
`3 → 2`, for the C3 counterexample and witness. -/
def gC3 : Graph String String String :=
  { nodes := [(0, .Condition), (1, .Code (.BasicBlock "h")),
              (2, .Code (.BasicBlock "l2")), (3, .Code (.BasicBlock "a"))],
    edges := [⟨0, 0, 1, none⟩, ⟨1, 0, 3, none⟩, ⟨2, 3, 2, none⟩,
              ⟨3, 1, 2, none⟩, ⟨4, 2, 1, none⟩],
    nextN := 4, nextE := 5 }

/-- A well-formed CFG (entry 0 reaches every node): the plain 3-cycle
`0 → 1 → 2 → 0`, for the C1 counterexample. -/
def stC1 : St Nat String String String :=
  { g := { nodes := [(0, .Code (.BasicBlock "n0")), (1, .Code (.BasicBlock "n1")),
                     (2, .Code (.BasicBlock "n2"))],
           edges := [⟨0, 0, 1, none⟩, ⟨1, 1, 2, none⟩, ⟨2, 2, 0, none⟩],
           nextN := 3, nextE := 3 },
    entry := 0, actx := 0 }

/-! ### Claim C10 witness -/

theorem c10_witness :
    (terminalPrep stOne).2 = stOne.g.nextN ∧
    (terminalPrep stOne).2 ∈
      (((addNode stOne.g (.Dummy "exit")).1.nodes.map (·.1)).filter
        (fun m => (edgesFrom (addNode stOne.g (.Dummy "exit")).1 m).isEmpty)) ∧
    ∃ eid, (⟨eid, (terminalPrep stOne).2, (terminalPrep stOne).2, none⟩ :
        Edge String) ∈ (terminalPrep stOne).1.edges :=
  c10_dummy_exit_self_edge stOne (by decide)

/-! ### Claim C6 witness -/

theorem c6_witness :
    (1 ∈ [1, 5] ∧ 1 ∈ [3, 2, 1, 0] ∧
      ∀ t ∈ [1, 5], t ∈ [3, 2, 1, 0] →
        List.indexOf 1 [3, 2, 1, 0] ≤ List.indexOf t [3, 2, 1, 0]) ∧
    (loopFinish stOne 0 1 none).g.edges ⊆ stOne.g.edges :=
  ⟨(c6_final_succ_selection (σ := Nat) (β := String) (ν := String)
      (α := String)).1 [3, 2, 1, 0] [1, 5] 1 (by decide),
   (c6_final_succ_selection (σ := Nat) (β := String) (ν := String)
      (α := String)).2 _ 0 1⟩

/-! ### Claim C5: re-structuring a packaged result -/

/-- Claim C5 (amended): structuring a CFG that consists of one `Code` node
holding the AST produced by a prior structuring run returns not that AST
itself but the AST wrapped in a singleton then-only conditional guarded by
`true` — `Seq([Cond(true, ast, None)])` — and leaves the graph empty. -/
theorem c5_amended_singleton_wrap :
    (structure_whole stringAst id (singleCodeSt priorAst 0)).1 =
      .Seq [.Cond .tru priorAst none] ∧
    (structure_whole stringAst id (singleCodeSt priorAst 0)).2.g.nodes = [] :=
  ⟨rfl, rfl⟩

/-- Claim C5 counterexample: repackaging the result of a prior structuring
run and structuring again does not return a structurally identical AST (it
wraps it in one more `Seq`/`Cond` layer). -/
theorem c5_counterexample :
    (structure_whole stringAst id (singleCodeSt priorAst 0)).1 ≠ priorAst := by
  intro h
  have h2 := congrArg (condCount 10) h
  have h3 : condCount 10 ((structure_whole stringAst id
      (singleCodeSt priorAst 0)).1) ≠ condCount 10 priorAst := by decide
  exact h3 h2

/-! ### Claim C4: determinism across runs -/

/-- Claim C4 counterexample: on a well-formed CFG whose loop has two
abnormal entry targets, two runs of `structure_whole` whose abnormal-entry
`HashMap`s iterate in different (both valid) orders return structurally
different ASTs. -/
theorem c4_counterexample :
    (∀ l : List Nat, (id l).Perm l) ∧
    (∀ l : List Nat, (l.reverse).Perm l) ∧
    (structure_whole stringAst id stAbnEntry).1 ≠
      (structure_whole stringAst (fun l => l.reverse) stAbnEntry).1 := by
  refine ⟨fun l => List.Perm.refl l, fun l => List.reverse_perm l, ?_⟩
  intro h
  have h2 := congrArg (blocksOf 20) h
  have h3 : blocksOf 20 (structure_whole stringAst id stAbnEntry).1 ≠
      blocksOf 20 (structure_whole stringAst (fun l => l.reverse)
        stAbnEntry).1 := by decide
  exact h3 h2

/-- Whether the PO-DFS visit of `n` is insensitive to the `HashMap`
iteration order: true when the abnormal-entry key list it would iterate has
at most one element. -/
def visitOk (bem : Nat → Option (List Nat × List Nat)) (st : St σ β ν α)
    (n : Nat) : Bool :=
  match bem n with
  | some (latches, bes) =>
    let pr := loopPrep st n latches bes
    decide ((abnKeysAt pr.1 st.entry n pr.2.2).length ≤ 1)
  | none => true

/-- Recorder run of `structure_whole`: traverse with the ascending
(identity) iteration order and record whether every visit was insensitive
to the `HashMap` iteration order. -/
def structure_whole_ok (C : AstCtx σ β ν α) (st : St σ β ν α) : Bool :=
  let d := dfsRun st.g st.entry
  (d.post.foldl
    (fun (p : St σ β ν α × Bool) n =>
      (visit C id (backedgeMapOf d) d.post p.1 n,
       p.2 && visitOk (backedgeMapOf d) p.1 n))
    (st, true)).2

theorem perm_short_eq {m l : List Nat} (h : m.Perm l) (hl : l.length ≤ 1) :
    m = l := by
  match l, hl with
  | [], _ => exact h.eq_nil
  | [a], _ => exact List.perm_singleton.mp h

theorem visit_ord_eq (C : AstCtx σ β ν α) (ord : List Nat → List Nat)
    (hval : ∀ l, (ord l).Perm l) (bem : Nat → Option (List Nat × List Nat))
    (trace : List Nat) (st : St σ β ν α) (n : Nat)
    (hok : visitOk bem st n = true) :
    visit C ord bem trace st n = visit C id bem trace st n := by
  cases hbem : bem n with
  | none => simp only [visit, hbem]
  | some p =>
    obtain ⟨latches, bes⟩ := p
    have hok2 := hok
    simp only [visitOk, hbem, decide_eq_true_eq] at hok2
    simp only [visit, hbem, id_eq]
    rw [perm_short_eq (hval _) hok2]

theorem foldl_flag_false {A B : Type} (f : A → B → A) (okf : A → B → Bool)
    (ns : List B) (a : A) :
    (ns.foldl (fun p n => (f p.1 n, p.2 && okf p.1 n)) (a, false)).2 =
      false := by
  induction ns generalizing a with
  | nil => rfl
  | cons n tl ih => simpa using ih (f a n)

theorem foldl_ord_eq {A B : Type} (f g : A → B → A) (okf : A → B → Bool)
    (hstep : ∀ a n, okf a n = true → f a n = g a n) (ns : List B) (a : A)
    (h : (ns.foldl (fun p n => (g p.1 n, p.2 && okf p.1 n)) (a, true)).2 =
      true) :
    ns.foldl f a = ns.foldl g a := by
  induction ns generalizing a with
  | nil => rfl
  | cons n tl ih =>
    have hok : okf a n = true := by
      by_contra hno
      rw [Bool.not_eq_true] at hno
      rw [List.foldl_cons] at h
      simp only [hno, Bool.true_and] at h
      rw [foldl_flag_false] at h
      cases h
    rw [List.foldl_cons, List.foldl_cons, hstep a n hok]
    apply ih
    rw [List.foldl_cons] at h
    simpa only [hok, Bool.true_and] using h

/-- Claim C4 (amended): `structure_whole` is deterministic across runs —
independent of the per-run `HashMap` iteration order of the abnormal-entry
maps — provided every loop visit has at most one abnormal entry target
(recorded by `structure_whole_ok`); with two or more abnormal entry targets
the output depends on the hash map's per-run iteration order and two runs
can differ structurally (see the counterexample). -/
theorem c4_amended_deterministic (C : AstCtx σ β ν α)
    (ord1 ord2 : List Nat → List Nat) (st : St σ β ν α)
    (h1 : ∀ l, (ord1 l).Perm l) (h2 : ∀ l, (ord2 l).Perm l)
    (hok : structure_whole_ok C st = true) :
    structure_whole C ord1 st = structure_whole C ord2 st := by
  have hok2 := hok
  simp only [structure_whole_ok] at hok2
  simp only [structure_whole]
  rw [foldl_ord_eq (visit C ord1 (backedgeMapOf (dfsRun st.g st.entry))
        (dfsRun st.g st.entry).post)
      (visit C id (backedgeMapOf (dfsRun st.g st.entry))
        (dfsRun st.g st.entry).post)
      (visitOk (backedgeMapOf (dfsRun st.g st.entry)))
      (fun a n => visit_ord_eq C ord1 h1 _ _ a n) _ _ hok2,
      foldl_ord_eq (visit C ord2 (backedgeMapOf (dfsRun st.g st.entry))
        (dfsRun st.g st.entry).post)
      (visit C id (backedgeMapOf (dfsRun st.g st.entry))
        (dfsRun st.g st.entry).post)
      (visitOk (backedgeMapOf (dfsRun st.g st.entry)))
      (fun a n => visit_ord_eq C ord2 h2 _ _ a n) _ _ hok2]

/-- Claim C4 witness: on the two-node endless-loop CFG (no abnormal
entries) two differently-ordered runs agree. -/
theorem c4_witness :
    structure_whole stringAst id
        { g := { nodes := [(0, .Code (.BasicBlock "entry")),
                           (1, .Code (.BasicBlock "n1"))],
                 edges := [⟨0, 0, 1, none⟩, ⟨1, 1, 0, none⟩],
                 nextN := 2, nextE := 2 },
          entry := 0, actx := (0 : Nat) } =
      structure_whole stringAst (fun l => l.reverse)
        { g := { nodes := [(0, .Code (.BasicBlock "entry")),
                           (1, .Code (.BasicBlock "n1"))],
                 edges := [⟨0, 0, 1, none⟩, ⟨1, 1, 0, none⟩],
                 nextN := 2, nextE := 2 },
          entry := 0, actx := (0 : Nat) } :=
  c4_amended_deterministic stringAst id (fun l => l.reverse) _
    (fun l => List.Perm.refl l) (fun l => List.reverse_perm l) (by decide)

/-! ### Claim C7: break insertion -/

theorem find?_append_of_some {A : Type} {q : A → Bool} {l1 : List A}
    (l2 : List A) {x : A} (h : l1.find? q = some x) :
    (l1 ++ l2).find? q = some x := by
  induction l1 with
  | nil => cases h
  | cons a tl ih =>
    cases hq : q a with
    | true =>
      rw [List.find?_cons_of_pos _ hq] at h
      rw [List.cons_append, List.find?_cons_of_pos _ hq]
      exact h
    | false =>
      rw [List.find?_cons_of_neg _ (by simp [hq])] at h
      rw [List.cons_append, List.find?_cons_of_neg _ (by simp [hq])]
      exact ih h

theorem payload_addNode_pres {g : Graph β ν α} {b : Nat}
    {p : CfgNode β ν α} (h : payload g b = some p) (q : CfgNode β ν α) :
    payload (addNode g q).1 b = some p := by
  simp only [payload, addNode] at h ⊢
  obtain ⟨pr, hf, hs⟩ := Option.map_eq_some'.mp h
  rw [find?_append_of_some _ hf]
  simpa using hs

theorem payload_addNode_self (g : Graph β ν α) (q : CfgNode β ν α)
    (h : ∀ p ∈ g.nodes, p.1 < g.nextN) :
    payload (addNode g q).1 g.nextN = some q := by
  simp only [payload, addNode]
  have hnone : g.nodes.find? (fun p => p.1 = g.nextN) = none := by
    rw [List.find?_eq_none]
    intro p hp
    simp only [decide_eq_true_eq]
    exact Nat.ne_of_lt (h p hp)
  rw [List.find?_append, hnone]
  simp

theorem mem_retarget_ne {g : Graph β ν α} {e : Edge α} {i t : Nat}
    (h : e ∈ g.edges) (hne : e.eid ≠ i) :
    e ∈ (retarget_edge g i t).edges := by
  simp only [retarget_edge]
  exact List.mem_map.mpr ⟨e, h, by simp [hne]⟩

theorem breakFoldStep_nodes (C : AstCtx σ β ν α) (lc : Nat)
    (acc : Graph β ν α × σ) (i : Nat) :
    (breakFoldStep C lc acc i).1.nodes =
      acc.1.nodes ++
        [(acc.1.nextN, .Code (.BasicBlock (C.mk_break acc.2).1))] := rfl

theorem breakFoldStep_edges (C : AstCtx σ β ν α) (lc : Nat)
    (acc : Graph β ν α × σ) (i : Nat) :
    (breakFoldStep C lc acc i).1.edges =
      (acc.1.edges.map
        (fun e => if e.eid = i then { e with tgt := acc.1.nextN } else e)) ++
        [⟨acc.1.nextE, acc.1.nextN, lc, some .fls⟩] := rfl

theorem breakFold_edges_pres (C : AstCtx σ β ν α) (lc : Nat)
    (eids : List Nat) :
    ∀ (acc : Graph β ν α × σ) (e : Edge α), e ∈ acc.1.edges →
      e.eid ∉ eids →
      e ∈ (eids.foldl (breakFoldStep C lc) acc).1.edges := by
  induction eids with
  | nil => exact fun acc e he _ => he
  | cons i tl ih =>
    intro acc e he hni
    rw [List.foldl_cons]
    refine ih _ e ?_ (fun hmem => hni (List.mem_cons_of_mem _ hmem))
    rw [breakFoldStep_edges]
    refine List.mem_append_left _ ?_
    have hne : e.eid ≠ i := fun h => hni (h ▸ List.mem_cons_self i tl)
    exact List.mem_map.mpr ⟨e, he, by simp [hne]⟩

theorem breakFold_payload_pres (C : AstCtx σ β ν α) (lc : Nat)
    (eids : List Nat) :
    ∀ (acc : Graph β ν α × σ) (b : Nat) (p : CfgNode β ν α),
      payload acc.1 b = some p →
      payload (eids.foldl (breakFoldStep C lc) acc).1 b = some p := by
  induction eids with
  | nil => exact fun acc b p h => h
  | cons i tl ih =>
    intro acc b p h
    rw [List.foldl_cons]
    refine ih _ b p ?_
    show payload { (breakFoldStep C lc acc i).1 with
        nodes := (breakFoldStep C lc acc i).1.nodes } b = some p
    simp only [breakFoldStep_nodes]
    simp only [payload] at h ⊢
    obtain ⟨pr, hf, hs⟩ := Option.map_eq_some'.mp h
    rw [find?_append_of_some _ hf]
    simpa using hs

theorem breakFold_nextN_le (C : AstCtx σ β ν α) (lc : Nat)
    (eids : List Nat) :
    ∀ (acc : Graph β ν α × σ),
      acc.1.nextN ≤ (eids.foldl (breakFoldStep C lc) acc).1.nextN := by
  induction eids with
  | nil => exact fun acc => le_refl _
  | cons i tl ih =>
    intro acc
    rw [List.foldl_cons]
    exact le_trans (Nat.le_succ _) (ih (breakFoldStep C lc acc i))

theorem breakFold_spec (C : AstCtx σ β ν α) (lc : Nat) (eids : List Nat) :
    ∀ (acc : Graph β ν α × σ), eids.Nodup →
      (∀ i ∈ eids, i < acc.1.nextE) →
      (∀ p ∈ acc.1.nodes, p.1 < acc.1.nextN) →
      ∀ e : Edge α, e ∈ acc.1.edges → e.eid ∈ eids →
      ∃ b s, acc.1.nextN ≤ b ∧
        payload ((eids.foldl (breakFoldStep C lc) acc)).1 b =
          some (.Code (.BasicBlock (C.mk_break s).1)) ∧
        (⟨e.eid, e.src, b, e.w⟩ : Edge α) ∈
          (eids.foldl (breakFoldStep C lc) acc).1.edges ∧
        ∃ eid2, (⟨eid2, b, lc, some .fls⟩ : Edge α) ∈
          (eids.foldl (breakFoldStep C lc) acc).1.edges := by
  induction eids with
  | nil => intro acc _ _ _ e _ hmem; cases hmem
  | cons i tl ih =>
    intro acc hnd hbound hnodes e he hein
    rw [List.foldl_cons]
    by_cases hei : e.eid = i
    · refine ⟨acc.1.nextN, acc.2, le_refl _, ?_, ?_, ?_⟩
      · refine breakFold_payload_pres C lc tl _ _ _ ?_
        show payload { (breakFoldStep C lc acc i).1 with
            nodes := (breakFoldStep C lc acc i).1.nodes } acc.1.nextN = _
        simp only [breakFoldStep_nodes]
        exact payload_addNode_self acc.1 _ hnodes
      · refine breakFold_edges_pres C lc tl _ _ ?_ ?_
        · rw [breakFoldStep_edges]
          refine List.mem_append_left _ ?_
          refine List.mem_map.mpr ⟨e, he, ?_⟩
          simp [hei]
        · show e.eid ∉ tl
          rw [hei]
          exact (List.nodup_cons.mp hnd).1
      · refine ⟨acc.1.nextE, ?_⟩
        refine breakFold_edges_pres C lc tl _ _ ?_ ?_
        · rw [breakFoldStep_edges]
          exact List.mem_append_right _ (List.mem_singleton.mpr rfl)
        · intro hmem
          exact absurd (hbound _ (List.mem_cons_of_mem _ hmem))
            (Nat.lt_irrefl _)
    · have hein2 : e.eid ∈ tl := by
        rcases List.mem_cons.mp hein with h | h
        · exact absurd h hei
        · exact h
      have he2 : e ∈ (breakFoldStep C lc acc i).1.edges := by
        rw [breakFoldStep_edges]
        refine List.mem_append_left _ ?_
        exact List.mem_map.mpr ⟨e, he, by simp [hei]⟩
      obtain ⟨b, s, hb, h1, h2, h3⟩ := ih (breakFoldStep C lc acc i)
        (List.nodup_cons.mp hnd).2
        (fun j hj => Nat.lt_succ_of_lt (hbound j (List.mem_cons_of_mem _ hj)))
        (by
          intro p hp
          rw [breakFoldStep_nodes] at hp
          rcases List.mem_append.mp hp with h | h
          · exact Nat.lt_succ_of_lt (hnodes p h)
          · rw [List.mem_singleton.mp h]
            exact Nat.lt_succ_self _)
        e he2 hein2
      exact ⟨b, s, le_trans (Nat.le_succ _) hb, h1, h2, h3⟩

/-- Claim C7: during abnormal-exit funnelling, for every edge whose source
is in the loop body and whose target is outside it, a fresh `Code` node
holding `mk_break()` is created, the edge is retargeted to that node, and
an edge from the break node to `loop_continue` guarded by the condition
`false` is added. -/
theorem c7_break_insertion (C : AstCtx σ β ν α) (g : Graph β ν α) (a : σ)
    (loopN : List Nat) (lc : Nat)
    (hn : ∀ p ∈ g.nodes, p.1 < g.nextN)
    (he : ∀ e ∈ g.edges, e.eid < g.nextE)
    (hd : (g.edges.map (·.eid)).Nodup)
    (e : Edge α) (hmem : e ∈ g.edges) (hsrc : e.src ∈ loopN)
    (htgt : e.tgt ∉ loopN) :
    ∃ b s, b ∉ g.nodes.map (·.1) ∧
      payload (insertBreaks C g a loopN lc).1 b =
        some (.Code (.BasicBlock (C.mk_break s).1)) ∧
      (⟨e.eid, e.src, b, e.w⟩ : Edge α) ∈
        (insertBreaks C g a loopN lc).1.edges ∧
      ∃ eid2, (⟨eid2, b, lc, some .fls⟩ : Edge α) ∈
        (insertBreaks C g a loopN lc).1.edges := by
  have hsub : ((g.edges.filter
      (fun e => e.src ∈ loopN ∧ e.tgt ∉ loopN)).map (·.eid)).Nodup :=
    ((List.filter_sublist g.edges).map _).nodup hd
  have hbound : ∀ i ∈ (g.edges.filter
      (fun e => e.src ∈ loopN ∧ e.tgt ∉ loopN)).map (·.eid), i < g.nextE := by
    intro i hi
    obtain ⟨e', he', rfl⟩ := List.mem_map.mp hi
    exact he e' (List.mem_filter.mp he').1
  have hein : e.eid ∈ (g.edges.filter
      (fun e => e.src ∈ loopN ∧ e.tgt ∉ loopN)).map (·.eid) := by
    refine List.mem_map.mpr ⟨e, ?_, rfl⟩
    refine List.mem_filter.mpr ⟨hmem, ?_⟩
    simp [hsrc, htgt]
  obtain ⟨b, s, hb, h1, h2, h3⟩ :=
    breakFold_spec C lc _ (g, a) hsub hbound hn e hmem hein
  refine ⟨b, s, ?_, h1, h2, h3⟩
  intro hmem2
  obtain ⟨p, hp, hpb⟩ := List.mem_map.mp hmem2
  exact absurd (hpb ▸ hn p hp) (Nat.not_lt_of_le hb)

/-! ### Claim C9: acyclic SESE reduction -/

theorem find?_filter_comm {A : Type} (q pr : A → Bool)
    (himp : ∀ x, q x = true → pr x = true) (l : List A) :
    (l.filter pr).find? q = l.find? q := by
  induction l with
  | nil => rfl
  | cons a tl ih =>
    cases hq : q a with
    | true =>
      rw [List.filter_cons, if_pos (himp a hq), List.find?_cons_of_pos _ hq,
          List.find?_cons_of_pos _ hq]
    | false =>
      rw [List.find?_cons_of_neg _ (by simp [hq])]
      cases hpr : pr a with
      | true =>
        rw [List.filter_cons, if_pos hpr, List.find?_cons_of_neg _ (by simp [hq])]
        exact ih
      | false =>
        rw [List.filter_cons, if_neg (by simp [hpr])]
        exact ih

theorem payload_removeNode_ne (g : Graph β ν α) (n m : Nat) (h : m ≠ n) :
    payload (removeNode g n) m = payload g m := by
  simp only [payload, removeNode]
  rw [find?_filter_comm]
  intro x hx
  simp only [decide_eq_true_eq] at hx ⊢
  rw [hx]
  exact h

theorem payload_removeNode_self (g : Graph β ν α) (n : Nat) :
    payload (removeNode g n) n = none := by
  simp only [payload, removeNode]
  rw [List.find?_eq_none.mpr]
  · rfl
  · intro p hp
    have := (List.mem_filter.mp hp).2
    simp only [decide_eq_true_eq] at this ⊢
    exact fun hq => this hq

theorem find?_map_pred_inv {A : Type} (f : A → A) (q : A → Bool)
    (hf : ∀ x, q (f x) = q x) :
    ∀ l : List A, (l.map f).find? q = (l.find? q).map f := by
  intro l
  induction l with
  | nil => rfl
  | cons a tl ih =>
    rw [List.map_cons]
    cases hq : q a with
    | true =>
      rw [List.find?_cons_of_pos _ hq,
          List.find?_cons_of_pos _ (by rw [hf]; exact hq)]
      rfl
    | false =>
      rw [List.find?_cons_of_neg _ (by simp [hf, hq]),
          List.find?_cons_of_neg _ (by simp [hq])]
      exact ih

theorem setPayload_find? (g : Graph β ν α) (n : Nat) (p : CfgNode β ν α)
    (m : Nat) :
    (setPayload g n p).nodes.find? (fun q => q.1 = m) =
      ((g.nodes.find? (fun q => q.1 = m)).map
        (fun q => if q.1 = n then (q.1, p) else q)) := by
  simp only [setPayload]
  refine find?_map_pred_inv _ _ ?_ _
  intro x
  by_cases hx : x.1 = n
  · rw [if_pos hx]
  · rw [if_neg hx]

theorem payload_setPayload_ne (g : Graph β ν α) (n : Nat)
    (p : CfgNode β ν α) (m : Nat) (h : m ≠ n) :
    payload (setPayload g n p) m = payload g m := by
  simp only [payload]
  rw [setPayload_find?]
  cases hf : g.nodes.find? (fun q => q.1 = m) with
  | none => rfl
  | some x =>
    have hx : x.1 = m := by
      have := List.find?_some hf
      simpa using this
    have hxn : x.1 ≠ n := fun hh => h (by rw [← hx, hh])
    simp [hxn]

theorem payload_setPayload_self (g : Graph β ν α) (n : Nat)
    (p : CfgNode β ν α) (h : (payload g n).isSome) :
    payload (setPayload g n p) n = some p := by
  simp only [payload] at h ⊢
  rw [setPayload_find?]
  cases hf : g.nodes.find? (fun q => q.1 = n) with
  | none => rw [hf] at h; simp at h
  | some x =>
    have hx : x.1 = n := by
      have := List.find?_some hf
      simpa using this
    simp [hx]

theorem seseStep_snd (rc : List (Nat × BCond α)) (header : Nat)
    (acc : List (AstNode β ν α) × Graph β ν α) (n : Nat) :
    (seseStep rc header acc n).2 =
      if n = header then setPayload acc.2 header (.Dummy "replaced header")
      else removeNode acc.2 n := by
  simp only [seseStep]
  cases hpay : payload acc.2 n with
  | none => rfl
  | some q => cases q <;> rfl

theorem seseStep_fst (rc : List (Nat × BCond α)) (header : Nat)
    (acc : List (AstNode β ν α) × Graph β ν α) (n : Nat) :
    (seseStep rc header acc n).1 =
      acc.1 ++ (match payload acc.2 n with
        | some (.Code a) => [AstNode.Cond ((alookup rc n).getD .tru) a none]
        | _ => []) := by
  simp only [seseStep]
  cases hpay : payload acc.2 n with
  | none => simp
  | some q => cases q <;> simp

theorem seseStep_payload_other (rc : List (Nat × BCond α)) (header : Nat)
    (acc : List (AstNode β ν α) × Graph β ν α) (n m : Nat) (hne : m ≠ n) :
    payload (seseStep rc header acc n).2 m = payload acc.2 m := by
  rw [seseStep_snd]
  by_cases hh : n = header
  · rw [if_pos hh]
    exact payload_setPayload_ne _ _ _ _ (hh ▸ hne)
  · rw [if_neg hh]
    exact payload_removeNode_ne _ _ _ hne

theorem filterMap_congr_mem {A B : Type} {f g : A → Option B} :
    ∀ {l : List A}, (∀ a ∈ l, f a = g a) → l.filterMap f = l.filterMap g := by
  intro l
  induction l with
  | nil => intro _; rfl
  | cons a tl ih =>
    intro h
    rw [List.filterMap_cons, List.filterMap_cons,
        h a (List.mem_cons_self a tl), ih (fun x hx => h x (List.mem_cons_of_mem _ hx))]

theorem seseFold_spec (rc : List (Nat × BCond α)) (header : Nat) :
    ∀ (order : List Nat) (acc : List (AstNode β ν α) × Graph β ν α),
    order.Nodup →
    ((order.foldl (seseStep rc header) acc).1 =
      acc.1 ++ order.filterMap (fun n =>
        match payload acc.2 n with
        | some (.Code a) =>
          some (AstNode.Cond ((alookup rc n).getD .tru) a none)
        | _ => none)) ∧
    (∀ n ∈ order, n ≠ header →
      payload (order.foldl (seseStep rc header) acc).2 n = none) ∧
    (∀ m, m ∉ order →
      payload (order.foldl (seseStep rc header) acc).2 m = payload acc.2 m) := by
  intro order
  induction order with
  | nil =>
    intro acc _
    refine ⟨by simp, fun n hn => absurd hn (List.not_mem_nil n), fun m _ => rfl⟩
  | cons n tl ih =>
    intro acc hnd
    have hnn : n ∉ tl := (List.nodup_cons.mp hnd).1
    obtain ⟨ih1, ih2, ih3⟩ := ih (seseStep rc header acc n)
      (List.nodup_cons.mp hnd).2
    refine ⟨?_, ?_, ?_⟩
    · rw [List.foldl_cons, ih1, seseStep_fst]
      rw [List.filterMap_cons, List.append_assoc]
      congr 1
      have hcongr : tl.filterMap (fun m =>
          match payload (seseStep rc header acc n).2 m with
          | some (.Code a) =>
            some (AstNode.Cond ((alookup rc m).getD .tru) a none)
          | _ => none) =
        tl.filterMap (fun m =>
          match payload acc.2 m with
          | some (.Code a) =>
            some (AstNode.Cond ((alookup rc m).getD .tru) a none)
          | _ => none) := by
        refine filterMap_congr_mem ?_
        intro m hm
        rw [seseStep_payload_other rc header acc n m
          (fun hh => hnn (hh ▸ hm))]
      rw [hcongr]
      cases hpay : payload acc.2 n with
      | none => simp
      | some q =>
        cases q with
        | Code a => simp
        | Condition => simp
        | Dummy t => simp
    · intro m hm hmh
      rcases List.mem_cons.mp hm with h | h
      · subst h
        rw [List.foldl_cons, ih3 m hnn, seseStep_snd, if_neg hmh]
        exact payload_removeNode_self _ _
      · exact ih2 m h hmh
    · intro m hm
      rw [List.foldl_cons, ih3 m (fun h => hm (List.mem_cons_of_mem _ h))]
      exact seseStep_payload_other rc header acc n m
        (fun h => hm (h ▸ List.mem_cons_self n tl))

/-- Claim C9: `structure_acyclic_sese_region` returns a `Seq` whose
elements are exactly, and in the slice's topological order, one
`Cond(rc(n), ast, None)` per `Code` node of the region; `Condition` (and
`Dummy`) nodes contribute nothing; every region node other than the header
is removed from the graph, nodes outside the region are untouched, and the
header is left as a placeholder dummy. -/
theorem c9_sese_region (g : Graph β ν α) (header successor : Nat)
    (hnd : ((reaching_conditions g header [successor]).2.dropLast).Nodup)
    (hpres : ∀ n ∈ (reaching_conditions g header [successor]).2.dropLast,
      (payload g n).isSome) :
    ((structure_acyclic_sese_region g header successor).1 =
      AstNode.Seq
        (((reaching_conditions g header [successor]).2.dropLast).filterMap
          (fun n => match payload g n with
            | some (.Code a) => some (AstNode.Cond
                ((alookup (reaching_conditions g header [successor]).1 n).getD
                  .tru) a none)
            | _ => none))) ∧
    (∀ n ∈ (reaching_conditions g header [successor]).2.dropLast,
      n ≠ header →
      payload (structure_acyclic_sese_region g header successor).2 n =
        none) ∧
    (∀ m, m ∉ (reaching_conditions g header [successor]).2.dropLast →
      payload (structure_acyclic_sese_region g header successor).2 m =
        payload g m) ∧
    (header ∈ (reaching_conditions g header [successor]).2.dropLast →
      payload (structure_acyclic_sese_region g header successor).2 header =
        some (.Dummy "replaced header")) := by
  obtain ⟨h1, h2, h3⟩ := seseFold_spec
    (reaching_conditions g header [successor]).1 header
    ((reaching_conditions g header [successor]).2.dropLast)
    ([], g) hnd
  refine ⟨?_, ?_, ?_, ?_⟩
  · show AstNode.Seq _ = _
    rw [h1]
    rfl
  · intro n hn hnh
    exact h2 n hn hnh
  · intro m hm
    exact h3 m hm
  · intro hh
    obtain ⟨pre, post, hsplit⟩ := List.append_of_mem hh
    have hndP := hnd
    rw [hsplit] at hndP
    have hhpre : header ∉ pre := by
      intro hmem
      exact (List.disjoint_of_nodup_append hndP) hmem
        (List.mem_cons_self header post)
    have hhpost : header ∉ post :=
      (List.nodup_cons.mp ((List.nodup_append.mp hndP).2.1)).1
    obtain ⟨p1, p2, p3⟩ := seseFold_spec
      (reaching_conditions g header [successor]).1 header pre ([], g)
      (List.nodup_append.mp hndP).1
    obtain ⟨q1, q2, q3⟩ := seseFold_spec
      (reaching_conditions g header [successor]).1 header post
      (seseStep (reaching_conditions g header [successor]).1 header
        (pre.foldl (seseStep (reaching_conditions g header [successor]).1
          header) ([], g)) header)
      (List.nodup_cons.mp ((List.nodup_append.mp hndP).2.1)).2
    show payload (((reaching_conditions g header [successor]).2.dropLast).foldl
      (seseStep (reaching_conditions g header [successor]).1 header)
      ([], g)).2 header = _
    rw [hsplit, List.foldl_append, List.foldl_cons]
    rw [q3 header hhpost]
    rw [seseStep_snd, if_pos rfl]
    refine payload_setPayload_self _ _ _ ?_
    rw [p3 header hhpre]
    exact hpres header hh

theorem c9_witness :
    (∀ n ∈ (reaching_conditions gDia 0 [3]).2.dropLast, n ≠ 0 →
      payload (structure_acyclic_sese_region gDia 0 3).2 n = none) ∧
    (∀ m, m ∉ (reaching_conditions gDia 0 [3]).2.dropLast →
      payload (structure_acyclic_sese_region gDia 0 3).2 m =
        payload gDia m) ∧
    (0 ∈ (reaching_conditions gDia 0 [3]).2.dropLast →
      payload (structure_acyclic_sese_region gDia 0 3).2 0 =
        some (CfgNode.Dummy "replaced header" :
          CfgNode String String String)) := by
  have h1 : ((reaching_conditions gDia 0 [3]).2.dropLast).Nodup := by decide
  have h2 : ∀ n ∈ (reaching_conditions gDia 0 [3]).2.dropLast,
      (payload gDia n).isSome := by decide
  exact (c9_sese_region gDia 0 3 h1 h2).2

/-! ### Claim C3: the abnormal-entry condition cascade -/

theorem cascStep_nodes (C : AstCtx σ β ν α) (sv : ν) (acc : CascAcc σ β ν α)
    (pr : Nat × Nat × List Nat) :
    (cascStep C sv acc pr).g.nodes =
      acc.g.nodes ++ [(acc.g.nextN, .Condition),
        (acc.g.nextN + 1, .Code (.BasicBlock
          (C.mk_var_assign (C.mk_cond_equals acc.a sv acc.prevNum).2 sv 0).1))] := by
  simp [cascStep, addNode, addEdge]

theorem cascStep_edges (C : AstCtx σ β ν α) (sv : ν) (acc : CascAcc σ β ν α)
    (pr : Nat × Nat × List Nat) :
    (cascStep C sv acc pr).g.edges =
      acc.g.edges ++
        [⟨acc.g.nextE, acc.prevCasc, acc.g.nextN, acc.prevOut⟩,
         ⟨acc.g.nextE + 1, acc.g.nextN, acc.prevTgt,
           some (.simple (C.mk_cond_equals acc.a sv acc.prevNum).1)⟩,
         ⟨acc.g.nextE + 2, acc.g.nextN + 1, pr.2.1, none⟩] := by
  simp [cascStep, addNode, addEdge]

theorem cascStep_nextN (C : AstCtx σ β ν α) (sv : ν) (acc : CascAcc σ β ν α)
    (pr : Nat × Nat × List Nat) :
    (cascStep C sv acc pr).g.nextN = acc.g.nextN + 2 := rfl

theorem cascStep_nextE (C : AstCtx σ β ν α) (sv : ν) (acc : CascAcc σ β ν α)
    (pr : Nat × Nat × List Nat) :
    (cascStep C sv acc pr).g.nextE = acc.g.nextE + 3 := rfl

theorem cascStep_prevs (C : AstCtx σ β ν α) (sv : ν) (acc : CascAcc σ β ν α)
    (pr : Nat × Nat × List Nat) :
    (cascStep C sv acc pr).prevCasc = acc.g.nextN ∧
    (cascStep C sv acc pr).prevTgt = acc.g.nextN + 1 ∧
    (cascStep C sv acc pr).prevOut =
      some (mk_not (.simple (C.mk_cond_equals acc.a sv acc.prevNum).1)) ∧
    (cascStep C sv acc pr).prevNum = pr.1 :=
  ⟨rfl, rfl, rfl, rfl⟩

theorem cascFold_basic (C : AstCtx σ β ν α) (sv : ν)
    (ps : List (Nat × Nat × List Nat)) :
    ∀ (acc : CascAcc σ β ν α),
    ((ps.foldl (cascStep C sv) acc).g.nextN =
      acc.g.nextN + 2 * ps.length) ∧
    ((ps.foldl (cascStep C sv) acc).g.nextE =
      acc.g.nextE + 3 * ps.length) ∧
    (∀ p ∈ acc.g.nodes, p ∈ (ps.foldl (cascStep C sv) acc).g.nodes) ∧
    (∀ e ∈ acc.g.edges, e ∈ (ps.foldl (cascStep C sv) acc).g.edges) ∧
    ((∀ p ∈ acc.g.nodes, p.1 < acc.g.nextN) →
      ∀ p ∈ (ps.foldl (cascStep C sv) acc).g.nodes,
        p.1 < (ps.foldl (cascStep C sv) acc).g.nextN) ∧
    ((∀ e ∈ acc.g.edges, e.eid < acc.g.nextE) →
      ∀ e ∈ (ps.foldl (cascStep C sv) acc).g.edges,
        e.eid < (ps.foldl (cascStep C sv) acc).g.nextE) := by
  induction ps with
  | nil =>
    intro acc
    exact ⟨rfl, rfl, fun p hp => hp, fun e he => he,
      fun h p hp => h p hp, fun h e he => h e he⟩
  | cons pr tl ih =>
    intro acc
    obtain ⟨i1, i2, i3, i4, i5, i6⟩ := ih (cascStep C sv acc pr)
    rw [List.foldl_cons]
    refine ⟨?_, ?_, ?_, ?_, ?_, ?_⟩
    · rw [i1, cascStep_nextN]
      simp only [List.length_cons]
      omega
    · rw [i2, cascStep_nextE]
      simp only [List.length_cons]
      omega
    · intro p hp
      refine i3 p ?_
      rw [cascStep_nodes]
      exact List.mem_append_left _ hp
    · intro e he
      refine i4 e ?_
      rw [cascStep_edges]
      exact List.mem_append_left _ he
    · intro hb
      refine i5 ?_
      intro p hp
      rw [cascStep_nodes] at hp
      rw [cascStep_nextN]
      rcases List.mem_append.mp hp with h | h
      · exact Nat.lt_of_lt_of_le (hb p h) (by omega)
      · rcases List.mem_cons.mp h with h | h
        · rw [h]; omega
        · rw [List.mem_singleton.mp h]; omega
    · intro hb
      refine i6 ?_
      intro e he
      rw [cascStep_edges] at he
      rw [cascStep_nextE]
      rcases List.mem_append.mp he with h | h
      · exact Nat.lt_of_lt_of_le (hb e h) (by omega)
      · rcases List.mem_cons.mp h with h | h
        · rw [h]
          show acc.g.nextE < acc.g.nextE + 3
          omega
        · rcases List.mem_cons.mp h with h | h
          · rw [h]
            show acc.g.nextE + 1 < acc.g.nextE + 3
            omega
          · rw [List.mem_singleton.mp h]
            show acc.g.nextE + 2 < acc.g.nextE + 3
            omega

theorem cascFold_payload_pres (C : AstCtx σ β ν α) (sv : ν)
    (ps : List (Nat × Nat × List Nat)) :
    ∀ (acc : CascAcc σ β ν α) (b : Nat) (p : CfgNode β ν α),
    payload acc.g b = some p →
    payload ((ps.foldl (cascStep C sv) acc)).g b = some p := by
  induction ps with
  | nil => exact fun acc b p h => h
  | cons pr tl ih =>
    intro acc b p h
    rw [List.foldl_cons]
    refine ih _ b p ?_
    show payload { (cascStep C sv acc pr).g with
        nodes := (cascStep C sv acc pr).g.nodes } b = some p
    rw [cascStep_nodes]
    simp only [payload] at h ⊢
    obtain ⟨x, hf, hs⟩ := Option.map_eq_some'.mp h
    rw [find?_append_of_some _ hf]
    simpa using hs

theorem find?_append_none {A : Type} {q : A → Bool} {l1 : List A}
    (l2 : List A) (h : l1.find? q = none) :
    (l1 ++ l2).find? q = l2.find? q := by
  induction l1 with
  | nil => rfl
  | cons a tl ih =>
    cases hq : q a with
    | true =>
      rw [List.find?_cons_of_pos _ hq] at h
      cases h
    | false =>
      rw [List.find?_cons_of_neg _ (by simp [hq])] at h
      rw [List.cons_append, List.find?_cons_of_neg _ (by simp [hq])]
      exact ih h

theorem cascFold_elems (C : AstCtx σ β ν α) (sv : ν) :
    ∀ (ts : List (Nat × List Nat)) (b : Nat) (acc : CascAcc σ β ν α),
    acc.prevNum = b →
    (∀ p ∈ acc.g.nodes, p.1 < acc.g.nextN) →
    (∀ j (hj : j < ts.length),
      payload ((ts.enumFrom (b + 1)).foldl (cascStep C sv) acc).g
          (acc.g.nextN + 2 * j) = some .Condition ∧
      (∃ s, payload ((ts.enumFrom (b + 1)).foldl (cascStep C sv) acc).g
          (acc.g.nextN + 2 * j + 1) =
        some (.Code (.BasicBlock (C.mk_var_assign s sv 0).1))) ∧
      (∃ eid, acc.g.nextE ≤ eid ∧
        (⟨eid, acc.g.nextN + 2 * j + 1, (ts.get ⟨j, hj⟩).1, none⟩ : Edge α) ∈
          ((ts.enumFrom (b + 1)).foldl (cascStep C sv) acc).g.edges)) ∧
    (ts ≠ [] →
      (∃ eid, acc.g.nextE ≤ eid ∧
        (⟨eid, acc.prevCasc, acc.g.nextN, acc.prevOut⟩ : Edge α) ∈
          ((ts.enumFrom (b + 1)).foldl (cascStep C sv) acc).g.edges) ∧
      (∃ s eid, acc.g.nextE ≤ eid ∧
        (⟨eid, acc.g.nextN, acc.prevTgt,
          some (.simple (C.mk_cond_equals s sv b).1)⟩ : Edge α) ∈
          ((ts.enumFrom (b + 1)).foldl (cascStep C sv) acc).g.edges)) ∧
    (∀ j, j + 1 < ts.length →
      (∃ s eid, acc.g.nextE ≤ eid ∧
        (⟨eid, acc.g.nextN + 2 * j, acc.g.nextN + 2 * (j + 1),
          some (mk_not (.simple (C.mk_cond_equals s sv (b + j)).1))⟩ :
            Edge α) ∈
          ((ts.enumFrom (b + 1)).foldl (cascStep C sv) acc).g.edges) ∧
      (∃ s eid, acc.g.nextE ≤ eid ∧
        (⟨eid, acc.g.nextN + 2 * (j + 1), acc.g.nextN + 2 * j + 1,
          some (.simple (C.mk_cond_equals s sv (b + j + 1)).1)⟩ : Edge α) ∈
          ((ts.enumFrom (b + 1)).foldl (cascStep C sv) acc).g.edges)) ∧
    (∀ L, ts.length = L + 1 →
      ((ts.enumFrom (b + 1)).foldl (cascStep C sv) acc).prevCasc =
        acc.g.nextN + 2 * L ∧
      ((ts.enumFrom (b + 1)).foldl (cascStep C sv) acc).prevTgt =
        acc.g.nextN + 2 * L + 1 ∧
      (∃ s, ((ts.enumFrom (b + 1)).foldl (cascStep C sv) acc).prevOut =
        some (mk_not (.simple (C.mk_cond_equals s sv (b + L)).1)))) ∧
    (∀ e ∈ ((ts.enumFrom (b + 1)).foldl (cascStep C sv) acc).g.edges,
      e ∈ acc.g.edges ∨
      (e.src = acc.prevCasc ∧ e.tgt = acc.g.nextN ∧ e.w = acc.prevOut) ∨
      acc.g.nextN ≤ e.src) := by
  intro ts
  induction ts with
  | nil =>
    intro b acc hprev hb
    refine ⟨fun j hj => absurd hj (by simp), fun h => absurd rfl h,
      fun j hj => absurd hj (by simp), fun L hL => absurd hL (by simp),
      fun e he => Or.inl he⟩
  | cons t tl ih =>
    intro b acc hprev hb
    have henum : (t :: tl).enumFrom (b + 1) =
        (b + 1, t) :: tl.enumFrom (b + 1 + 1) := rfl
    rw [henum, List.foldl_cons]
    set acc2 := cascStep C sv acc (b + 1, t) with hacc2
    have hprev2 : acc2.prevNum = b + 1 := (cascStep_prevs C sv acc _).2.2.2
    have hb2 : ∀ p ∈ acc2.g.nodes, p.1 < acc2.g.nextN := by
      intro p hp
      rw [hacc2, cascStep_nodes] at hp
      rw [hacc2, cascStep_nextN]
      rcases List.mem_append.mp hp with h | h
      · exact Nat.lt_of_lt_of_le (hb p h) (by omega)
      · rcases List.mem_cons.mp h with h | h
        · rw [h]; show acc.g.nextN < acc.g.nextN + 2; omega
        · rw [List.mem_singleton.mp h]
          show acc.g.nextN + 1 < acc.g.nextN + 2
          omega
    obtain ⟨ih1, ih2, ih3, ih4, ih5⟩ := ih (b + 1) acc2 hprev2 hb2
    have hN2 : acc2.g.nextN = acc.g.nextN + 2 := cascStep_nextN C sv acc _
    have hE2 : acc2.g.nextE = acc.g.nextE + 3 := cascStep_nextE C sv acc _
    obtain ⟨hpc2, hpt2, hpo2, hpn2⟩ := cascStep_prevs C sv acc (b + 1, t)
    have hedges2 : acc2.g.edges = acc.g.edges ++
        [⟨acc.g.nextE, acc.prevCasc, acc.g.nextN, acc.prevOut⟩,
         ⟨acc.g.nextE + 1, acc.g.nextN, acc.prevTgt,
           some (.simple (C.mk_cond_equals acc.a sv acc.prevNum).1)⟩,
         ⟨acc.g.nextE + 2, acc.g.nextN + 1, t.1, none⟩] :=
      cascStep_edges C sv acc _
    have hepres : ∀ e ∈ acc2.g.edges,
        e ∈ ((tl.enumFrom (b + 2)).foldl (cascStep C sv) acc2).g.edges :=
      (cascFold_basic C sv _ acc2).2.2.2.1
    refine ⟨?_, ?_, ?_, ?_, ?_⟩
    · intro j hj
      cases j with
      | zero =>
        refine ⟨?_, ?_, ?_⟩
        · rw [show acc.g.nextN + 2 * 0 = acc.g.nextN from by omega]
          refine cascFold_payload_pres C sv _ acc2 _ _ ?_
          show payload { acc2.g with nodes := acc2.g.nodes } acc.g.nextN = _
          rw [hacc2, cascStep_nodes]
          simp only [payload]
          have hnone : acc.g.nodes.find?
              (fun p => decide (p.1 = acc.g.nextN)) = none := by
            rw [List.find?_eq_none]
            intro p hp
            simp only [decide_eq_true_eq]
            exact Nat.ne_of_lt (hb p hp)
          rw [find?_append_none _ hnone, List.find?_cons_of_pos _ (by simp)]
          rfl
        · refine ⟨(C.mk_cond_equals acc.a sv acc.prevNum).2, ?_⟩
          rw [show acc.g.nextN + 2 * 0 + 1 = acc.g.nextN + 1 from by omega]
          refine cascFold_payload_pres C sv _ acc2 _ _ ?_
          show payload { acc2.g with nodes := acc2.g.nodes }
            (acc.g.nextN + 1) = _
          rw [hacc2, cascStep_nodes]
          simp only [payload]
          have hnone : acc.g.nodes.find?
              (fun p => decide (p.1 = acc.g.nextN + 1)) = none := by
            rw [List.find?_eq_none]
            intro p hp
            simp only [decide_eq_true_eq]
            exact Nat.ne_of_lt (Nat.lt_succ_of_lt (hb p hp))
          rw [find?_append_none _ hnone,
              List.find?_cons_of_neg _ (by simp),
              List.find?_cons_of_pos _ (by simp)]
          rfl
        · refine ⟨acc.g.nextE + 2, by omega, ?_⟩
          refine hepres _ ?_
          rw [hedges2]
          simp
      | succ j =>
        have hj2 : j < tl.length := by
          simpa using Nat.lt_of_succ_lt_succ hj
        obtain ⟨p1, p2, p3⟩ := ih1 j hj2
        refine ⟨?_, ?_, ?_⟩
        · rw [show acc.g.nextN + 2 * (j + 1) = acc2.g.nextN + 2 * j by omega]
          exact p1
        · rw [show acc.g.nextN + 2 * (j + 1) + 1 = acc2.g.nextN + 2 * j + 1
            by omega]
          exact p2
        · obtain ⟨eid, heid, hmem⟩ := p3
          refine ⟨eid, by omega, ?_⟩
          rw [show acc.g.nextN + 2 * (j + 1) + 1 = acc2.g.nextN + 2 * j + 1
            by omega]
          exact hmem
    · intro _
      constructor
      · refine ⟨acc.g.nextE, le_refl _, ?_⟩
        refine hepres _ ?_
        rw [hedges2]
        simp
      · refine ⟨acc.a, acc.g.nextE + 1, by omega, ?_⟩
        refine hepres _ ?_
        rw [hedges2, hprev]
        simp
    · intro j hj
      cases j with
      | zero =>
        have htl : tl ≠ [] := by
          intro h
          rw [h] at hj
          simp at hj
        obtain ⟨q1, q2⟩ := ih2 htl
        constructor
        · obtain ⟨eid, heid, hmem⟩ := q1
          refine ⟨acc.a, eid, by omega, ?_⟩
          rw [hpc2, hN2, hpo2, hprev] at hmem
          rw [show acc.g.nextN + 2 * 0 = acc.g.nextN by omega,
              show acc.g.nextN + 2 * (0 + 1) = acc.g.nextN + 2 by omega,
              show b + 0 = b by omega]
          exact hmem
        · obtain ⟨s, eid, heid, hmem⟩ := q2
          refine ⟨s, eid, by omega, ?_⟩
          rw [hpt2, hN2] at hmem
          rw [show acc.g.nextN + 2 * (0 + 1) = acc.g.nextN + 2 by omega,
              show acc.g.nextN + 2 * 0 + 1 = acc.g.nextN + 1 by omega,
              show b + 0 + 1 = b + 1 by omega]
          exact hmem
      | succ j =>
        have hj2 : j + 1 < tl.length := by
          simpa using Nat.lt_of_succ_lt_succ hj
        obtain ⟨q1, q2⟩ := ih3 j hj2
        constructor
        · obtain ⟨s, eid, heid, hmem⟩ := q1
          refine ⟨s, eid, by omega, ?_⟩
          rw [hN2] at hmem
          rw [show acc.g.nextN + 2 * (j + 1) = acc.g.nextN + 2 + 2 * j
              by omega,
              show acc.g.nextN + 2 * (j + 1 + 1) = acc.g.nextN + 2 + 2 * (j + 1)
              by omega,
              show b + (j + 1) = b + 1 + j by omega]
          exact hmem
        · obtain ⟨s, eid, heid, hmem⟩ := q2
          refine ⟨s, eid, by omega, ?_⟩
          rw [hN2] at hmem
          rw [show acc.g.nextN + 2 * (j + 1 + 1) = acc.g.nextN + 2 + 2 * (j + 1)
              by omega,
              show acc.g.nextN + 2 * (j + 1) + 1 = acc.g.nextN + 2 + 2 * j + 1
              by omega,
              show b + (j + 1) + 1 = b + 1 + j + 1 by omega]
          exact hmem
    · intro L hL
      cases L with
      | zero =>
        have htl : tl = [] := by
          simpa using hL
        subst htl
        refine ⟨?_, ?_, ?_⟩
        · show acc2.prevCasc = _
          rw [hpc2]
          omega
        · show acc2.prevTgt = _
          rw [hpt2]
        · refine ⟨acc.a, ?_⟩
          show acc2.prevOut = _
          rw [hpo2, hprev]
          simp
      | succ L =>
        have hL2 : tl.length = L + 1 := by
          simpa using hL
        obtain ⟨r1, r2, r3⟩ := ih4 L hL2
        refine ⟨?_, ?_, ?_⟩
        · rw [r1, hN2]
          omega
        · rw [r2, hN2]
          omega
        · obtain ⟨s, hs⟩ := r3
          refine ⟨s, ?_⟩
          rw [show b + (L + 1) = b + 1 + L from by omega]
          exact hs
    · intro e he
      rcases ih5 e he with h | h | h
      · rw [hedges2] at h
        rcases List.mem_append.mp h with h | h
        · exact Or.inl h
        · rcases List.mem_cons.mp h with h | h
          · refine Or.inr (Or.inl ?_)
            rw [h]
            exact ⟨rfl, rfl, rfl⟩
          · rcases List.mem_cons.mp h with h | h
            · refine Or.inr (Or.inr ?_)
              rw [h]
            · refine Or.inr (Or.inr ?_)
              rw [List.mem_singleton.mp h]
              show acc.g.nextN ≤ acc.g.nextN + 1
              omega
      · obtain ⟨h1, h2, h3⟩ := h
        refine Or.inr (Or.inr ?_)
        rw [h1, hpc2]
      · refine Or.inr (Or.inr ?_)
        rw [hN2] at h
        omega

theorem head_getD_all {l : List Nat} {a : Nat} (hne : l ≠ [])
    (h : ∀ x ∈ l, x = a) (d : Nat) : l.head?.getD d = a := by
  cases l with
  | nil => exact absurd rfl hne
  | cons x xs => exact h x (List.mem_cons_self x xs)

theorem mem_neighborsOf {g : Graph β ν α} {e : Edge α} {n : Nat}
    (he : e ∈ g.edges) (hs : e.src = n) : e.tgt ∈ neighborsOf g n := by
  simp only [neighborsOf, edgesFrom]
  exact List.mem_map.mpr ⟨e, List.mem_filter.mpr ⟨he, by simp [hs]⟩, rfl⟩

theorem neighborsOf_mem_inv {g : Graph β ν α} {n x : Nat}
    (h : x ∈ neighborsOf g n) : ∃ e ∈ g.edges, e.src = n ∧ e.tgt = x := by
  simp only [neighborsOf, edgesFrom] at h
  obtain ⟨e, he, rfl⟩ := List.mem_map.mp h
  have hm := List.mem_filter.mp he
  exact ⟨e, hm.1, by simpa using hm.2, rfl⟩

theorem mem_removeNode_edges {g : Graph β ν α} {e : Edge α} {n : Nat}
    (he : e ∈ g.edges) (hs : e.src ≠ n) (ht : e.tgt ≠ n) :
    e ∈ (removeNode g n).edges :=
  List.mem_filter.mpr ⟨he, by simp [hs, ht]⟩

theorem retargetFold_nodes (t : Nat) (ids : List Nat) :
    ∀ g : Graph β ν α,
    (ids.foldl (fun g eid => retarget_edge g eid t) g).nodes = g.nodes := by
  induction ids with
  | nil => exact fun g => rfl
  | cons i tl ih => exact fun g => ih (retarget_edge g i t)

theorem retargetFold_mem (t : Nat) (ids : List Nat) :
    ∀ (g : Graph β ν α) (e : Edge α), e ∈ g.edges → (∀ i ∈ ids, e.eid ≠ i) →
    e ∈ (ids.foldl (fun g eid => retarget_edge g eid t) g).edges := by
  induction ids with
  | nil => exact fun g e he _ => he
  | cons i tl ih =>
    intro g e he hni
    rw [List.foldl_cons]
    exact ih _ e (mem_retarget_ne he (hni i (List.mem_cons_self i tl)))
      (fun j hj => hni j (List.mem_cons_of_mem i hj))

theorem payload_addEdge (g : Graph β ν α) (s t : Nat) (w : Option (BCond α))
    (b : Nat) : payload (addEdge g s t w) b = payload g b := rfl

theorem payload_retargetFold (t : Nat) (ids : List Nat) (g : Graph β ν α)
    (b : Nat) :
    payload (ids.foldl (fun g eid => retarget_edge g eid t) g) b =
      payload g b := by
  simp only [payload, retargetFold_nodes]

theorem redirectStep_payload (C : AstCtx σ β ν α) (sv : ν) (nh : Nat)
    (acc : Graph β ν α × σ) (pr : Nat × List Nat) {b : Nat}
    {p : CfgNode β ν α} (h : payload acc.1 b = some p) :
    payload (redirectStep C sv nh acc pr).1 b = some p := by
  show payload (pr.2.foldl (fun g eid => retarget_edge g eid _) _) b = some p
  rw [payload_retargetFold, payload_addEdge]
  exact payload_addNode_pres h _

theorem redirectStep_mem (C : AstCtx σ β ν α) (sv : ν) (nh : Nat)
    (acc : Graph β ν α × σ) (pr : Nat × List Nat) {e : Edge α} {E : Nat}
    (he : e ∈ acc.1.edges) (hE : E ≤ e.eid) (hids : ∀ i ∈ pr.2, i < E) :
    e ∈ (redirectStep C sv nh acc pr).1.edges := by
  show e ∈ (pr.2.foldl (fun g eid => retarget_edge g eid _) _).edges
  refine retargetFold_mem _ _ _ e ?_ ?_
  · exact List.mem_append_left _ he
  · intro i hi
    exact Nat.ne_of_gt (Nat.lt_of_lt_of_le (hids i hi) hE)

theorem redirectFold_pres (C : AstCtx σ β ν α) (sv : ν) (nh : Nat)
    (prs : List (Nat × List Nat)) (E : Nat) :
    ∀ acc : Graph β ν α × σ,
    (∀ pr ∈ prs, ∀ i ∈ pr.2, i < E) →
    (∀ b (p : CfgNode β ν α), payload acc.1 b = some p →
      payload (prs.foldl (redirectStep C sv nh) acc).1 b = some p) ∧
    (∀ e ∈ acc.1.edges, E ≤ e.eid →
      e ∈ (prs.foldl (redirectStep C sv nh) acc).1.edges) := by
  induction prs with
  | nil => exact fun acc _ => ⟨fun b p h => h, fun e he _ => he⟩
  | cons pr tl ih =>
    intro acc hids
    obtain ⟨i1, i2⟩ := ih (redirectStep C sv nh acc pr)
      (fun q hq => hids q (List.mem_cons_of_mem pr hq))
    rw [List.foldl_cons]
    exact ⟨fun b p h => i1 b p (redirectStep_payload C sv nh acc pr h),
      fun e he hE => i2 e (redirectStep_mem C sv nh acc pr he hE
        (hids pr (List.mem_cons_self pr tl))) hE⟩

theorem entryPairsOf_mem {g : Graph β ν α} {loopN : List Nat}
    {pr : Nat × List Nat} (h : pr ∈ entryPairsOf g loopN) :
    pr.1 ∈ loopN ∧ ∀ i ∈ pr.2, ∃ e ∈ g.edges, e.eid = i := by
  simp only [entryPairsOf] at h
  obtain ⟨m, hm, hsome⟩ := List.mem_filterMap.mp h
  split at hsome
  · cases hsome
  · have hpr := Option.some.inj hsome
    subst hpr
    refine ⟨hm, ?_⟩
    intro i hi
    obtain ⟨e, he, rfl⟩ := List.mem_map.mp hi
    have h1 := (List.mem_filter.mp he).1
    simp only [edgesInto] at h1
    exact ⟨e, (List.mem_filter.mp h1).1, rfl⟩

theorem abnOrdOf_mem {g : Graph β ν α} {header : Nat} {loopN okeys : List Nat}
    {x : Nat × List Nat} (h : x ∈ abnOrdOf g header loopN okeys) :
    x ∈ entryPairsOf g loopN ∧ x.1 ≠ header := by
  simp only [abnOrdOf] at h
  obtain ⟨k, hk, hfind⟩ := List.mem_filterMap.mp h
  have hmem := List.mem_filter.mp (List.mem_of_find?_eq_some hfind)
  exact ⟨hmem.1, by simpa using hmem.2⟩

theorem abnOrdOf_ne_nil_filter {g : Graph β ν α} {header : Nat}
    {loopN okeys : List Nat} (h : abnOrdOf g header loopN okeys ≠ []) :
    ((entryPairsOf g loopN).filter (fun p => p.1 ≠ header)).isEmpty = false := by
  cases hts : abnOrdOf g header loopN okeys with
  | nil => exact absurd hts h
  | cons x xs =>
    have hx : x ∈ abnOrdOf g header loopN okeys := by
      rw [hts]
      exact List.mem_cons_self x xs
    simp only [abnOrdOf] at hx
    obtain ⟨k, hk, hfind⟩ := List.mem_filterMap.mp hx
    have hmem := List.mem_of_find?_eq_some hfind
    cases hf : (entryPairsOf g loopN).filter (fun p => p.1 ≠ header) with
    | nil => rw [hf] at hmem; cases hmem
    | cons y ys => rfl

theorem snd_mem_of_mem_enumFrom {A : Type} :
    ∀ (l : List A) (n : Nat) (x : Nat × A), x ∈ l.enumFrom n → x.2 ∈ l := by
  intro l
  induction l with
  | nil => intro n x h; cases h
  | cons a tl ih =>
    intro n x h
    rw [show (a :: tl).enumFrom n = (n, a) :: tl.enumFrom (n + 1) from rfl] at h
    rcases List.mem_cons.mp h with h | h
    · rw [h]
      exact List.mem_cons_self a tl
    · exact List.mem_cons_of_mem a (ih (n + 1) x h)

theorem funnel_eq_main (C : AstCtx σ β ν α) (st : St σ β ν α)
    (header : Nat) (loopN okeys : List Nat)
    (h1 : ¬ header = st.entry)
    (h2 : ((entryPairsOf st.g loopN).filter
      (fun p => p.1 ≠ header)).isEmpty = false) :
    funnel_abnormal_entries C st header loopN okeys =
      funnelMain C st header loopN okeys := by
  show (if header = st.entry then (st, header) else
    if ((entryPairsOf st.g loopN).filter (fun p => p.1 ≠ header)).isEmpty
    then (st, header) else funnelMain C st header loopN okeys) =
    funnelMain C st header loopN okeys
  rw [if_neg h1, h2]
  simp

theorem cascOf_spec (C : AstCtx σ β ν α) (st : St σ β ν α) (header : Nat)
    (loopN okeys : List Nat)
    (hnodes : ∀ p ∈ st.g.nodes, p.1 < st.g.nextN) :
    (∀ j (hj : j < (abnOrdOf st.g header loopN okeys).length),
      payload (cascOf C st header loopN okeys).g (st.g.nextN + 1 + 2 * j) =
        some .Condition ∧
      (∃ s, payload (cascOf C st header loopN okeys).g
          (st.g.nextN + 1 + 2 * j + 1) =
        some (.Code (.BasicBlock
          (C.mk_var_assign s (C.mk_fresh_var st.actx).1 0).1))) ∧
      (∃ i, st.g.nextE ≤ i ∧
        (⟨i, st.g.nextN + 1 + 2 * j + 1,
          ((abnOrdOf st.g header loopN okeys).get ⟨j, hj⟩).1, none⟩ : Edge α) ∈
          (cascOf C st header loopN okeys).g.edges)) ∧
    (abnOrdOf st.g header loopN okeys ≠ [] →
      (∃ i, st.g.nextE ≤ i ∧
        (⟨i, st.g.nextN, st.g.nextN + 1, none⟩ : Edge α) ∈
          (cascOf C st header loopN okeys).g.edges) ∧
      (∃ s i, st.g.nextE ≤ i ∧
        (⟨i, st.g.nextN + 1, header,
          some (.simple (C.mk_cond_equals s (C.mk_fresh_var st.actx).1 0).1)⟩ :
            Edge α) ∈
          (cascOf C st header loopN okeys).g.edges)) ∧
    (∀ j, j + 1 < (abnOrdOf st.g header loopN okeys).length →
      (∃ s i, st.g.nextE ≤ i ∧
        (⟨i, st.g.nextN + 1 + 2 * j, st.g.nextN + 1 + 2 * (j + 1),
          some (mk_not (.simple
            (C.mk_cond_equals s (C.mk_fresh_var st.actx).1 j).1))⟩ : Edge α) ∈
          (cascOf C st header loopN okeys).g.edges) ∧
      (∃ s i, st.g.nextE ≤ i ∧
        (⟨i, st.g.nextN + 1 + 2 * (j + 1), st.g.nextN + 1 + 2 * j + 1,
          some (.simple
            (C.mk_cond_equals s (C.mk_fresh_var st.actx).1 (j + 1)).1)⟩ :
            Edge α) ∈
          (cascOf C st header loopN okeys).g.edges)) ∧
    (∀ L, (abnOrdOf st.g header loopN okeys).length = L + 1 →
      (cascOf C st header loopN okeys).prevCasc = st.g.nextN + 1 + 2 * L ∧
      (cascOf C st header loopN okeys).prevTgt = st.g.nextN + 1 + 2 * L + 1 ∧
      (∃ s, (cascOf C st header loopN okeys).prevOut =
        some (mk_not (.simple
          (C.mk_cond_equals s (C.mk_fresh_var st.actx).1 L).1)))) ∧
    (∀ e ∈ (cascOf C st header loopN okeys).g.edges,
      e ∈ st.g.edges ∨
      (e.src = st.g.nextN ∧ e.tgt = st.g.nextN + 1 ∧ e.w = none) ∨
      st.g.nextN + 1 ≤ e.src) := by
  have hb : ∀ p ∈ (addNode st.g (CfgNode.Dummy "loop preheader")).1.nodes,
      p.1 < (addNode st.g (CfgNode.Dummy "loop preheader")).1.nextN := by
    intro p hp
    simp only [addNode] at hp ⊢
    rcases List.mem_append.mp hp with h | h
    · exact Nat.lt_of_lt_of_le (hnodes p h) (Nat.le_succ _)
    · rw [List.mem_singleton.mp h]
      exact Nat.lt_succ_self _
  have h := cascFold_elems C (C.mk_fresh_var st.actx).1
    (abnOrdOf st.g header loopN okeys) 0
    ⟨(addNode st.g (CfgNode.Dummy "loop preheader")).1,
     (C.mk_fresh_var st.actx).2,
     (addNode st.g (CfgNode.Dummy "loop preheader")).2, header, none, 0⟩
    rfl hb
  simp only [Nat.zero_add] at h
  exact h

theorem newHeaderOf_eq (C : AstCtx σ β ν α) (st : St σ β ν α) (header : Nat)
    (loopN okeys : List Nat)
    (hts : abnOrdOf st.g header loopN okeys ≠ [])
    (hnodes : ∀ p ∈ st.g.nodes, p.1 < st.g.nextN)
    (hsrc : ∀ e ∈ st.g.edges, e.src < st.g.nextN) :
    newHeaderOf C st header loopN okeys = st.g.nextN + 1 := by
  obtain ⟨h1, h2, h3, h4, h5⟩ := cascOf_spec C st header loopN okeys hnodes
  obtain ⟨L, hL⟩ : ∃ L, (abnOrdOf st.g header loopN okeys).length = L + 1 := by
    cases hl : (abnOrdOf st.g header loopN okeys).length with
    | zero => exact absurd (List.length_eq_zero.mp hl) hts
    | succ n => exact ⟨n, rfl⟩
  obtain ⟨hpc, hpt, hpo⟩ := h4 L hL
  have hall : ∀ x ∈ neighborsOf (cascGraphOf C st header loopN okeys)
      st.g.nextN, x = st.g.nextN + 1 := by
    intro x hx
    obtain ⟨e, he, hesrc, hetgt⟩ := neighborsOf_mem_inv hx
    have he2 : e ∈ (cascOf C st header loopN okeys).g.edges ∨
        e = ⟨(cascOf C st header loopN okeys).g.nextE,
          (cascOf C st header loopN okeys).prevCasc,
          (cascOf C st header loopN okeys).prevTgt,
          (cascOf C st header loopN okeys).prevOut⟩ := by
      have he3 : e ∈ (cascOf C st header loopN okeys).g.edges ++
          [⟨(cascOf C st header loopN okeys).g.nextE,
            (cascOf C st header loopN okeys).prevCasc,
            (cascOf C st header loopN okeys).prevTgt,
            (cascOf C st header loopN okeys).prevOut⟩] := he
      rcases List.mem_append.mp he3 with h | h
      · exact Or.inl h
      · exact Or.inr (List.mem_singleton.mp h)
    rcases he2 with h | h
    · rcases h5 e h with h | h | h
      · have := hsrc e h
        omega
      · rw [← hetgt]
        exact h.2.1
      · rw [hesrc] at h
        omega
    · have hsrc2 : (cascOf C st header loopN okeys).prevCasc = st.g.nextN := by
        rw [← hesrc, h]
      rw [hpc] at hsrc2
      omega
  have hnn : neighborsOf (cascGraphOf C st header loopN okeys)
      st.g.nextN ≠ [] := by
    obtain ⟨i, hi, hmem⟩ := (h2 hts).1
    have hmem2 : (⟨i, st.g.nextN, st.g.nextN + 1, none⟩ : Edge α) ∈
        (cascGraphOf C st header loopN okeys).edges :=
      List.mem_append_left _ hmem
    have hmem3 := mem_neighborsOf hmem2 rfl
    intro hnil
    rw [hnil] at hmem3
    cases hmem3
  exact head_getD_all hnn hall 0

/-- C3 (amended).  When `funnel_abnormal_entries` regularizes a loop whose
abnormal-entry map has `L + 1` targets, the cascade it builds is a chain of
`Condition` nodes at indices `nextN + 1 + 2j` testing `v == 0 … v == L` in
map order; the new header is the first cascade node; the first test
`v == 0` routes directly to the loop header; the test `v == j + 1` routes
to the `Code` node `nextN + 1 + 2j + 1` that resets `v := 0` and then
enters the `j`-th abnormal target; and the final fallthrough edge, guarded
by the negation of the last test, routes to the last reset node — which is
not the loop header (contrary to the original claim, which says the
fallthrough routes to the header and the tested values are the targets'
tags `1 … L + 1`). -/
theorem c3_amended_cascade (C : AstCtx σ β ν α) (st : St σ β ν α)
    (header : Nat) (loopN okeys : List Nat) (L : Nat)
    (hne : ¬ header = st.entry)
    (hm : (abnOrdOf st.g header loopN okeys).length = L + 1)
    (hnodes : ∀ p ∈ st.g.nodes, p.1 < st.g.nextN)
    (hedges : ∀ e ∈ st.g.edges, e.eid < st.g.nextE)
    (hsrc : ∀ e ∈ st.g.edges, e.src < st.g.nextN)
    (hheader : header < st.g.nextN)
    (hloop : ∀ n ∈ loopN, n < st.g.nextN) :
    (funnel_abnormal_entries C st header loopN okeys).2 = st.g.nextN + 1 ∧
    (∀ j, j ≤ L →
      payload (funnel_abnormal_entries C st header loopN okeys).1.g
        (st.g.nextN + 1 + 2 * j) = some .Condition) ∧
    (∃ s i, st.g.nextE ≤ i ∧
      (⟨i, st.g.nextN + 1, header,
        some (.simple (C.mk_cond_equals s (C.mk_fresh_var st.actx).1 0).1)⟩ :
          Edge α) ∈
        (funnel_abnormal_entries C st header loopN okeys).1.g.edges) ∧
    (∀ j, j < L →
      (∃ s i, st.g.nextE ≤ i ∧
        (⟨i, st.g.nextN + 1 + 2 * j, st.g.nextN + 1 + 2 * (j + 1),
          some (mk_not (.simple
            (C.mk_cond_equals s (C.mk_fresh_var st.actx).1 j).1))⟩ : Edge α) ∈
          (funnel_abnormal_entries C st header loopN okeys).1.g.edges) ∧
      (∃ s i, st.g.nextE ≤ i ∧
        (⟨i, st.g.nextN + 1 + 2 * (j + 1), st.g.nextN + 1 + 2 * j + 1,
          some (.simple
            (C.mk_cond_equals s (C.mk_fresh_var st.actx).1 (j + 1)).1)⟩ :
            Edge α) ∈
          (funnel_abnormal_entries C st header loopN okeys).1.g.edges)) ∧
    (∀ j (hj : j < (abnOrdOf st.g header loopN okeys).length),
      (∃ s, payload (funnel_abnormal_entries C st header loopN okeys).1.g
          (st.g.nextN + 1 + 2 * j + 1) =
        some (.Code (.BasicBlock
          (C.mk_var_assign s (C.mk_fresh_var st.actx).1 0).1))) ∧
      (∃ i, st.g.nextE ≤ i ∧
        (⟨i, st.g.nextN + 1 + 2 * j + 1,
          ((abnOrdOf st.g header loopN okeys).get ⟨j, hj⟩).1, none⟩ : Edge α) ∈
          (funnel_abnormal_entries C st header loopN okeys).1.g.edges)) ∧
    (∃ s i, st.g.nextE ≤ i ∧
      (⟨i, st.g.nextN + 1 + 2 * L, st.g.nextN + 1 + 2 * L + 1,
        some (mk_not (.simple
          (C.mk_cond_equals s (C.mk_fresh_var st.actx).1 L).1))⟩ : Edge α) ∈
        (funnel_abnormal_entries C st header loopN okeys).1.g.edges) ∧
    st.g.nextN + 1 + 2 * L + 1 ≠ header := by
  have hts : abnOrdOf st.g header loopN okeys ≠ [] := by
    intro h
    rw [h] at hm
    simp only [List.length_nil] at hm
    omega
  have habn := abnOrdOf_ne_nil_filter hts
  have hfm : funnel_abnormal_entries C st header loopN okeys =
      ({ st with
          g := ((redirectListOf st.g header loopN okeys).foldl
              (redirectStep C (C.mk_fresh_var st.actx).1
                (newHeaderOf C st header loopN okeys))
              (removeNode (cascGraphOf C st header loopN okeys) st.g.nextN,
                (cascOf C st header loopN okeys).a)).1,
          actx := ((redirectListOf st.g header loopN okeys).foldl
              (redirectStep C (C.mk_fresh_var st.actx).1
                (newHeaderOf C st header loopN okeys))
              (removeNode (cascGraphOf C st header loopN okeys) st.g.nextN,
                (cascOf C st header loopN okeys).a)).2 },
        newHeaderOf C st header loopN okeys) := by
    rw [funnel_eq_main C st header loopN okeys hne habn]
    rfl
  have hrl : ∀ pr ∈ redirectListOf st.g header loopN okeys,
      ∀ i ∈ pr.2, i < st.g.nextE := by
    intro pr hpr i hi
    simp only [redirectListOf] at hpr
    rcases List.mem_cons.mp hpr with h | h
    · subst h
      cases hfind : (entryPairsOf st.g loopN).find? (fun p => p.1 = header) with
      | none =>
        rw [hfind] at hi
        cases hi
      | some q =>
        rw [hfind] at hi
        obtain ⟨e, he, rfl⟩ := (entryPairsOf_mem
          (List.mem_of_find?_eq_some hfind)).2 i hi
        exact hedges e he
    · obtain ⟨q, hq, rfl⟩ := List.mem_map.mp h
      obtain ⟨e, he, rfl⟩ := (entryPairsOf_mem
        (abnOrdOf_mem (snd_mem_of_mem_enumFrom _ 1 q hq)).1).2 i hi
      exact hedges e he
  obtain ⟨P1, P2⟩ := redirectFold_pres C (C.mk_fresh_var st.actx).1
    (newHeaderOf C st header loopN okeys)
    (redirectListOf st.g header loopN okeys) st.g.nextE
    (removeNode (cascGraphOf C st header loopN okeys) st.g.nextN,
     (cascOf C st header loopN okeys).a) hrl
  obtain ⟨h1, h2, h3, h4, h5⟩ := cascOf_spec C st header loopN okeys hnodes
  obtain ⟨hpc, hpt, s0, hpos⟩ := h4 L hm
  rw [hfm]
  refine ⟨?_, ?_, ?_, ?_, ?_, ?_, ?_⟩
  · exact newHeaderOf_eq C st header loopN okeys hts hnodes hsrc
  · intro j hj
    obtain ⟨hc, _, _⟩ := h1 j (by omega)
    refine P1 _ _ ?_
    show payload (removeNode (cascGraphOf C st header loopN okeys) st.g.nextN)
      (st.g.nextN + 1 + 2 * j) = some CfgNode.Condition
    rw [payload_removeNode_ne (cascGraphOf C st header loopN okeys)
      st.g.nextN (st.g.nextN + 1 + 2 * j) (by omega)]
    exact hc
  · obtain ⟨s, i, hi, hmem⟩ := (h2 hts).2
    refine ⟨s, i, hi, ?_⟩
    refine P2 _ ?_ hi
    refine mem_removeNode_edges (List.mem_append_left _ hmem) ?_ ?_
    · show st.g.nextN + 1 ≠ st.g.nextN
      omega
    · show header ≠ st.g.nextN
      omega
  · intro j hj
    obtain ⟨⟨s1, i1, hi1, hmem1⟩, s2, i2, hi2, hmem2⟩ := h3 j (by omega)
    constructor
    · refine ⟨s1, i1, hi1, ?_⟩
      refine P2 _ ?_ hi1
      refine mem_removeNode_edges (List.mem_append_left _ hmem1) ?_ ?_
      · show st.g.nextN + 1 + 2 * j ≠ st.g.nextN
        omega
      · show st.g.nextN + 1 + 2 * (j + 1) ≠ st.g.nextN
        omega
    · refine ⟨s2, i2, hi2, ?_⟩
      refine P2 _ ?_ hi2
      refine mem_removeNode_edges (List.mem_append_left _ hmem2) ?_ ?_
      · show st.g.nextN + 1 + 2 * (j + 1) ≠ st.g.nextN
        omega
      · show st.g.nextN + 1 + 2 * j + 1 ≠ st.g.nextN
        omega
  · intro j hj
    obtain ⟨_, ⟨s, hpay⟩, i, hi, hmem⟩ := h1 j hj
    refine ⟨⟨s, ?_⟩, i, hi, ?_⟩
    · refine P1 _ _ ?_
      show payload (removeNode (cascGraphOf C st header loopN okeys)
        st.g.nextN) (st.g.nextN + 1 + 2 * j + 1) = some (CfgNode.Code
          (AstNode.BasicBlock
            (C.mk_var_assign s (C.mk_fresh_var st.actx).1 0).1))
      rw [payload_removeNode_ne (cascGraphOf C st header loopN okeys)
        st.g.nextN (st.g.nextN + 1 + 2 * j + 1) (by omega)]
      exact hpay
    · refine P2 _ ?_ hi
      refine mem_removeNode_edges (List.mem_append_left _ hmem) ?_ ?_
      · show st.g.nextN + 1 + 2 * j + 1 ≠ st.g.nextN
        omega
      · have htg : ((abnOrdOf st.g header loopN okeys).get ⟨j, hj⟩).1 ∈ loopN :=
          (entryPairsOf_mem (abnOrdOf_mem (List.get_mem _ _ _)).1).1
        have hlt := hloop _ htg
        show ((abnOrdOf st.g header loopN okeys).get ⟨j, hj⟩).1 ≠ st.g.nextN
        omega
  · have hE := (cascFold_basic C (C.mk_fresh_var st.actx).1
      ((abnOrdOf st.g header loopN okeys).enumFrom 1)
      ⟨(addNode st.g (CfgNode.Dummy "loop preheader")).1,
       (C.mk_fresh_var st.actx).2,
       (addNode st.g (CfgNode.Dummy "loop preheader")).2,
       header, none, 0⟩).2.1
    have hEc : st.g.nextE ≤ (cascOf C st header loopN okeys).g.nextE := by
      rw [show (cascOf C st header loopN okeys).g.nextE =
          (((abnOrdOf st.g header loopN okeys).enumFrom 1).foldl
            (cascStep C (C.mk_fresh_var st.actx).1)
            ⟨(addNode st.g (CfgNode.Dummy "loop preheader")).1,
             (C.mk_fresh_var st.actx).2,
             (addNode st.g (CfgNode.Dummy "loop preheader")).2,
             header, none, 0⟩).g.nextE from rfl, hE]
      show st.g.nextE ≤ st.g.nextE +
        3 * ((abnOrdOf st.g header loopN okeys).enumFrom 1).length
      omega
    have hself : (⟨(cascOf C st header loopN okeys).g.nextE,
        (cascOf C st header loopN okeys).prevCasc,
        (cascOf C st header loopN okeys).prevTgt,
        (cascOf C st header loopN okeys).prevOut⟩ : Edge α) ∈
        (cascGraphOf C st header loopN okeys).edges :=
      self_mem_edges_addEdge _ _ _ _
    rw [hpc, hpt, hpos] at hself
    refine ⟨s0, (cascOf C st header loopN okeys).g.nextE, hEc, ?_⟩
    refine P2 _ ?_ hEc
    refine mem_removeNode_edges hself ?_ ?_
    · show st.g.nextN + 1 + 2 * L ≠ st.g.nextN
      omega
    · show st.g.nextN + 1 + 2 * L + 1 ≠ st.g.nextN
      omega
  · omega

/-- C3 counterexample.  Running `funnel_abnormal_entries` on `gC3` (loop
`{1, 2}` headed at 1, entry 0, one abnormal entry into node 2, whose
dispatch tag is 1): the abnormal-entry map is `[(2, [2])]`, yet no edge of
the result is guarded by the test `i_0 == 1`, and every fallthrough edge of
the cascade (guarded by the negation of `i_0 == 0`) routes to a node other
than the loop header 1 — refuting both that the cascade tests `v == tag`
for the abnormal targets' tags and that the final fallthrough routes to
the header. -/
theorem c3_counterexample :
    abnOrdOf gC3 1 [1, 2] [2] = [(2, [2])] ∧
    (∀ e ∈ (funnel_abnormal_entries stringAst ⟨gC3, 0, 0⟩ 1 [1, 2] [2]).1.g.edges,
      e.w ≠ some (.simple "i_0 == 1")) ∧
    (∀ e ∈ (funnel_abnormal_entries stringAst ⟨gC3, 0, 0⟩ 1 [1, 2] [2]).1.g.edges,
      e.w = some (mk_not (.simple "i_0 == 0")) → e.tgt ≠ 1) := by
  decide

/-- C3 witness: the amended theorem applied to `gC3` with its one abnormal
target (`L = 0`): the new header is the first cascade node 5, and the final
fallthrough edge `5 → 6` guarded by the negation of `i_0 == 0` is present
in the result. -/
theorem c3_witness :
    (funnel_abnormal_entries stringAst ⟨gC3, 0, 0⟩ 1 [1, 2] [2]).2 = 5 ∧
    (∃ s i, 5 ≤ i ∧
      (⟨i, 5, 6, some (mk_not (.simple
        (stringAst.mk_cond_equals s (stringAst.mk_fresh_var 0).1 0).1))⟩ :
          Edge String) ∈
        (funnel_abnormal_entries stringAst ⟨gC3, 0, 0⟩ 1 [1, 2] [2]).1.g.edges) := by
  have h := c3_amended_cascade stringAst ⟨gC3, 0, 0⟩ 1 [1, 2] [2] 0 (by decide)
    (by decide) (by decide) (by decide) (by decide) (by decide) (by decide)
  exact ⟨h.1, h.2.2.2.2.2.1⟩

/-! ### Claim C1: the final graph need not be empty -/

/-- C1 counterexample.  On the well-formed 3-cycle `stC1` (entry 0 reaches
every node), the run leaves node 1 in the graph and returns an AST with no
basic blocks at all: the PO-DFS back-edge map is computed once up front, the
acyclic visit of node 1 absorbs latch node 2 and rewires `1 → 0`, and the
loop visit of the entry then works with a stale latch set and a back-edge
id that no longer exists, so nothing reaches `loop_continue` and node 1
survives the terminal reduction. -/
theorem c1_counterexample :
    ([0, 1, 2].all (fun m => m ∈ reachFrom stC1.g 0 [])) = true ∧
    (structure_whole stringAst id stC1).2.g.nodes.map (·.1) = [1] ∧
    blocksOf 100 (structure_whole stringAst id stC1).1 = [] := by
  decide

/-! ### Claim C8: no Dummy node escapes a visit -/

theorem nde_mono {l l' : List Nat} {g : Graph β ν α}
    (hs : ∀ x ∈ l, x ∈ l') (h : noDummyExcept l g) : noDummyExcept l' g :=
  fun p hp => (h p hp).imp_right (hs p.1)

theorem noDummy_nde {g : Graph β ν α} (h : noDummy g) : noDummyExcept [] g :=
  fun p hp => Or.inl (h p hp)

theorem nde_noDummy {g : Graph β ν α} (h : noDummyExcept [] g) : noDummy g :=
  fun p hp => (h p hp).resolve_right (fun hx => by cases hx)

theorem nde_nodes_eq {l : List Nat} {g g' : Graph β ν α}
    (he : g'.nodes = g.nodes) (h : noDummyExcept l g) : noDummyExcept l g' :=
  fun p hp => h p (he ▸ hp)

theorem nde_addNode_ok {l : List Nat} {g : Graph β ν α} {p : CfgNode β ν α}
    (h : noDummyExcept l g) (hp : isDummy p = false) :
    noDummyExcept l (addNode g p).1 := by
  intro q hq
  simp only [addNode] at hq
  rcases List.mem_append.mp hq with hq | hq
  · exact h q hq
  · rw [List.mem_singleton.mp hq]
    exact Or.inl hp

theorem nde_addNode_any {l : List Nat} {g : Graph β ν α} (p : CfgNode β ν α)
    (h : noDummyExcept l g) :
    noDummyExcept (g.nextN :: l) (addNode g p).1 := by
  intro q hq
  simp only [addNode] at hq
  rcases List.mem_append.mp hq with hq | hq
  · exact (h q hq).imp_right (List.mem_cons_of_mem _)
  · rw [List.mem_singleton.mp hq]
    exact Or.inr (List.mem_cons_self _ _)

theorem nde_removeNode {l l' : List Nat} {g : Graph β ν α} {n : Nat}
    (h : noDummyExcept l g) (hs : ∀ x ∈ l, x ≠ n → x ∈ l') :
    noDummyExcept l' (removeNode g n) := by
  intro q hq
  simp only [removeNode] at hq
  have hm := List.mem_filter.mp hq
  have hne : q.1 ≠ n := by simpa using hm.2
  exact (h q hm.1).imp_right (fun hx => hs q.1 hx hne)

theorem nde_setPayload_ok {l : List Nat} {g : Graph β ν α} {n : Nat}
    {p : CfgNode β ν α} (h : noDummyExcept (n :: l) g)
    (hp : isDummy p = false) : noDummyExcept l (setPayload g n p) := by
  intro q hq
  simp only [setPayload] at hq
  obtain ⟨r, hr, hqr⟩ := List.mem_map.mp hq
  by_cases hrn : r.1 = n
  · rw [if_pos hrn] at hqr
    rw [← hqr]
    exact Or.inl hp
  · rw [if_neg hrn] at hqr
    rw [← hqr]
    rcases h r hr with ho | ho
    · exact Or.inl ho
    · rcases List.mem_cons.mp ho with ho | ho
      · exact absurd ho hrn
      · exact Or.inr ho

theorem nde_setPayload_any {l : List Nat} {g : Graph β ν α} (n : Nat)
    (p : CfgNode β ν α) (h : noDummyExcept l g) :
    noDummyExcept (n :: l) (setPayload g n p) := by
  intro q hq
  simp only [setPayload] at hq
  obtain ⟨r, hr, hqr⟩ := List.mem_map.mp hq
  by_cases hrn : r.1 = n
  · rw [if_pos hrn] at hqr
    rw [← hqr]
    refine Or.inr ?_
    show r.1 ∈ n :: l
    rw [hrn]
    exact List.mem_cons_self _ _
  · rw [if_neg hrn] at hqr
    rw [← hqr]
    exact (h r hr).imp_right (List.mem_cons_of_mem _)

theorem nde_seseFold (rc : List (Nat × BCond α)) (header : Nat)
    (l : List Nat) (order : List Nat) :
    ∀ acc : List (AstNode β ν α) × Graph β ν α,
    noDummyExcept (header :: l) acc.2 →
    noDummyExcept (header :: l) (order.foldl (seseStep rc header) acc).2 := by
  induction order with
  | nil => exact fun acc h => h
  | cons m tl ih =>
    intro acc h
    rw [List.foldl_cons]
    refine ih _ ?_
    rw [seseStep_snd]
    split
    · refine nde_mono ?_ (nde_setPayload_any header _ h)
      intro x hx
      rcases List.mem_cons.mp hx with hx | hx
      · rw [hx]
        exact List.mem_cons_self _ _
      · exact hx
    · exact nde_removeNode h (fun x hx _ => hx)

theorem nde_sese {l : List Nat} {g : Graph β ν α} (header succ : Nat)
    (h : noDummyExcept l g) :
    noDummyExcept (header :: l)
      (structure_acyclic_sese_region g header succ).2 := by
  refine nde_seseFold _ header l _ ([], g) ?_
  exact nde_mono (fun x hx => List.mem_cons_of_mem _ hx) h

theorem nde_addEdge {l : List Nat} {g : Graph β ν α} (s t : Nat)
    (w : Option (BCond α)) (h : noDummyExcept l g) :
    noDummyExcept l (addEdge g s t w) := h

theorem nde_cascFold (C : AstCtx σ β ν α) (sv : ν) (l : List Nat)
    (ps : List (Nat × Nat × List Nat)) :
    ∀ acc : CascAcc σ β ν α, noDummyExcept l acc.g →
    noDummyExcept l (ps.foldl (cascStep C sv) acc).g := by
  induction ps with
  | nil => exact fun acc h => h
  | cons pr tl ih =>
    intro acc h
    rw [List.foldl_cons]
    refine ih _ ?_
    intro q hq
    rw [cascStep_nodes] at hq
    rcases List.mem_append.mp hq with hq | hq
    · exact h q hq
    · rcases List.mem_cons.mp hq with hq | hq
      · rw [hq]
        exact Or.inl rfl
      · rw [List.mem_singleton.mp hq]
        exact Or.inl rfl

theorem redirectStep_nodes (C : AstCtx σ β ν α) (sv : ν) (nh : Nat)
    (acc : Graph β ν α × σ) (pr : Nat × List Nat) :
    (redirectStep C sv nh acc pr).1.nodes =
      acc.1.nodes ++ [(acc.1.nextN, .Code (.BasicBlock
        (C.mk_var_assign acc.2 sv pr.1).1))] := by
  show (pr.2.foldl (fun g eid => retarget_edge g eid _) _).nodes = _
  rw [retargetFold_nodes]
  rfl

theorem nde_redirectFold (C : AstCtx σ β ν α) (sv : ν) (nh : Nat)
    (l : List Nat) (prs : List (Nat × List Nat)) :
    ∀ acc : Graph β ν α × σ, noDummyExcept l acc.1 →
    noDummyExcept l (prs.foldl (redirectStep C sv nh) acc).1 := by
  induction prs with
  | nil => exact fun acc h => h
  | cons pr tl ih =>
    intro acc h
    rw [List.foldl_cons]
    refine ih _ ?_
    intro q hq
    rw [redirectStep_nodes] at hq
    rcases List.mem_append.mp hq with hq | hq
    · exact h q hq
    · rw [List.mem_singleton.mp hq]
      exact Or.inl rfl

theorem nde_funnelMain (C : AstCtx σ β ν α) (st : St σ β ν α)
    (header : Nat) (loopN okeys : List Nat) (l : List Nat)
    (h : noDummyExcept l st.g) :
    noDummyExcept l (funnelMain C st header loopN okeys).1.g := by
  show noDummyExcept l ((redirectListOf st.g header loopN okeys).foldl
    (redirectStep C (C.mk_fresh_var st.actx).1
      (newHeaderOf C st header loopN okeys))
    (removeNode (cascGraphOf C st header loopN okeys) st.g.nextN,
     (cascOf C st header loopN okeys).a)).1
  refine nde_redirectFold C _ _ l _ _ ?_
  show noDummyExcept l
    (removeNode (cascGraphOf C st header loopN okeys) st.g.nextN)
  refine nde_removeNode (l := st.g.nextN :: l) ?_ ?_
  · show noDummyExcept (st.g.nextN :: l)
      (addEdge (cascOf C st header loopN okeys).g
        (cascOf C st header loopN okeys).prevCasc
        (cascOf C st header loopN okeys).prevTgt
        (cascOf C st header loopN okeys).prevOut)
    refine nde_addEdge _ _ _ ?_
    refine nde_cascFold C _ _ _ _ ?_
    show noDummyExcept (st.g.nextN :: l)
      (addNode st.g (CfgNode.Dummy "loop preheader")).1
    exact nde_addNode_any _ h
  · intro x hx hne
    rcases List.mem_cons.mp hx with hx | hx
    · exact absurd hx hne
    · exact hx

theorem nde_funnel (C : AstCtx σ β ν α) (st : St σ β ν α)
    (header : Nat) (loopN okeys : List Nat) (l : List Nat)
    (h : noDummyExcept l st.g) :
    noDummyExcept l (funnel_abnormal_entries C st header loopN okeys).1.g := by
  by_cases h1 : header = st.entry
  · rw [show funnel_abnormal_entries C st header loopN okeys = (st, header) from by
      show (if header = st.entry then (st, header) else
        if ((entryPairsOf st.g loopN).filter (fun p => p.1 ≠ header)).isEmpty
        then (st, header) else funnelMain C st header loopN okeys) = (st, header)
      rw [if_pos h1]]
    exact h
  · cases hb : ((entryPairsOf st.g loopN).filter
        (fun p => p.1 ≠ header)).isEmpty with
    | true =>
      rw [show funnel_abnormal_entries C st header loopN okeys = (st, header) from by
        show (if header = st.entry then (st, header) else
          if ((entryPairsOf st.g loopN).filter (fun p => p.1 ≠ header)).isEmpty
          then (st, header) else funnelMain C st header loopN okeys) = (st, header)
        rw [if_neg h1, hb]
        simp]
      exact h
    | false =>
      rw [funnel_eq_main C st header loopN okeys h1 hb]
      exact nde_funnelMain C st header loopN okeys l h

theorem nde_breakFold (C : AstCtx σ β ν α) (lc : Nat) (l : List Nat)
    (ids : List Nat) :
    ∀ acc : Graph β ν α × σ, noDummyExcept l acc.1 →
    noDummyExcept l (ids.foldl (breakFoldStep C lc) acc).1 := by
  induction ids with
  | nil => exact fun acc h => h
  | cons i tl ih =>
    intro acc h
    rw [List.foldl_cons]
    refine ih _ ?_
    intro q hq
    rw [breakFoldStep_nodes] at hq
    rcases List.mem_append.mp hq with hq | hq
    · exact h q hq
    · rw [List.mem_singleton.mp hq]
      exact Or.inl rfl

theorem nde_insertBreaks (C : AstCtx σ β ν α) (g : Graph β ν α) (a : σ)
    (loopN : List Nat) (lc : Nat) (l : List Nat) (h : noDummyExcept l g) :
    noDummyExcept l (insertBreaks C g a loopN lc).1 := by
  show noDummyExcept l
    (((g.edges.filter (fun e => e.src ∈ loopN ∧ e.tgt ∉ loopN)).map
      (·.eid)).foldl (breakFoldStep C lc) (g, a)).1
  exact nde_breakFold C lc l _ (g, a) h

theorem exitsCascStep_nodes (rc : List (Nat × BCond α))
    (acc : Graph β ν α × Nat × Option (BCond α)) (t : Nat) :
    (exitsCascStep rc acc t).1.nodes =
      acc.1.nodes ++ [(acc.1.nextN, .Condition)] := rfl

theorem nde_exitsCascFold (rc : List (Nat × BCond α)) (l : List Nat)
    (ts : List Nat) :
    ∀ acc : Graph β ν α × Nat × Option (BCond α), noDummyExcept l acc.1 →
    noDummyExcept l (ts.foldl (exitsCascStep rc) acc).1 := by
  induction ts with
  | nil => exact fun acc h => h
  | cons t tl ih =>
    intro acc h
    rw [List.foldl_cons]
    refine ih _ ?_
    intro q hq
    rw [exitsCascStep_nodes] at hq
    rcases List.mem_append.mp hq with hq | hq
    · exact h q hq
    · rw [List.mem_singleton.mp hq]
      exact Or.inl rfl

theorem nde_exitsPrep (C : AstCtx σ β ν α) (st : St σ β ν α)
    (loopN : List Nat) (finalSucc : Nat) (abnSucc : List Nat)
    (l : List Nat) (h : noDummyExcept l st.g) :
    noDummyExcept l (exitsPrep C st loopN finalSucc abnSucc).1.g := by
  unfold exitsPrep
  split
  · exact h
  · refine nde_removeNode (l := st.g.nextN :: l) ?_ ?_
    · refine nde_addEdge _ _ _ ?_
      refine nde_exitsCascFold _ _ _ _ ?_
      show noDummyExcept (st.g.nextN :: l)
        (addNode st.g (CfgNode.Dummy "loop presuccessor")).1
      exact nde_addNode_any _ h
    · intro x hx hne
      rcases List.mem_cons.mp hx with hx | hx
      · exact absurd hx hne
      · exact hx

theorem nde_exits (C : AstCtx σ β ν α) (st : St σ β ν α)
    (loopN : List Nat) (lc fs : Nat) (abnSucc : List Nat)
    (l : List Nat) (h : noDummyExcept l st.g) :
    noDummyExcept l (funnel_abnormal_exits C st loopN lc fs abnSucc).1.g := by
  show noDummyExcept l (insertBreaks C
    (exitsPrep C st loopN fs abnSucc).1.g
    (exitsPrep C st loopN fs abnSucc).1.actx loopN lc).1
  exact nde_insertBreaks C _ _ loopN lc l
    (nde_exitsPrep C st loopN fs abnSucc l h)

theorem nde_loopFinish (st : St σ β ν α) (lh lc : Nat)
    (opt : Option Nat) (l : List Nat) (h : noDummyExcept (lc :: l) st.g) :
    noDummyExcept l (loopFinish st lh lc opt).g := by
  have h1 := nde_sese lh lc h
  have h2 : noDummyExcept (lh :: l)
      (removeNode (structure_acyclic_sese_region st.g lh lc).2 lc) := by
    refine nde_removeNode h1 ?_
    intro x hx hne
    rcases List.mem_cons.mp hx with hx | hx
    · rw [hx]
      exact List.mem_cons_self _ _
    · rcases List.mem_cons.mp hx with hx | hx
      · exact absurd hx hne
      · exact List.mem_cons_of_mem _ hx
  have h3 := nde_setPayload_ok (p := .Code (.Loop .Endless
    (structure_acyclic_sese_region st.g lh lc).1)) h2 rfl
  cases opt with
  | some s => exact h3
  | none => exact h3

theorem nde_loopMainAfter (C : AstCtx σ β ν α) (st2 : St σ β ν α)
    (lh lc : Nat) (loopNodes succN : List Nat) (fsOpt : Option Nat)
    (l : List Nat) (h : noDummyExcept (lc :: l) st2.g) :
    noDummyExcept l (loopMainAfter C st2 lh lc loopNodes succN fsOpt).g := by
  cases fsOpt with
  | none => exact nde_loopFinish st2 lh lc none l h
  | some fs =>
    exact nde_loopFinish (funnel_abnormal_exits C st2 loopNodes lc fs
        (succN.filter (fun m => m ≠ fs))).1 lh lc
      (some (funnel_abnormal_exits C st2 loopNodes lc fs
        (succN.filter (fun m => m ≠ fs))).2) l
      (nde_exits C st2 loopNodes lc fs (succN.filter (fun m => m ≠ fs))
        (lc :: l) h)

theorem nde_loopMain (C : AstCtx σ β ν α) (trace : List Nat)
    (st : St σ β ν α) (n lc : Nat) (iln okeys : List Nat)
    (l : List Nat) (h : noDummyExcept (lc :: l) st.g) :
    noDummyExcept l (loopMain C trace st n lc iln okeys).g := by
  show noDummyExcept l (loopMainAfter C
    (funnel_abnormal_entries C st n iln okeys).1
    (funnel_abnormal_entries C st n iln okeys).2 lc
    (refine_loop (funnel_abnormal_entries C st n iln okeys).1.g iln
      (strict_successors_of_set
        (funnel_abnormal_entries C st n iln okeys).1.g iln)).1
    (refine_loop (funnel_abnormal_entries C st n iln okeys).1.g iln
      (strict_successors_of_set
        (funnel_abnormal_entries C st n iln okeys).1.g iln)).2
    (finalSuccOf trace
      (refine_loop (funnel_abnormal_entries C st n iln okeys).1.g iln
        (strict_successors_of_set
          (funnel_abnormal_entries C st n iln okeys).1.g iln)).2)).g
  exact nde_loopMainAfter C _ _ lc _ _ _ l
    (nde_funnel C st n iln okeys (lc :: l) h)

theorem nde_acyclicVisit (st : St σ β ν α) (n : Nat) (l : List Nat)
    (h : noDummyExcept l st.g) : noDummyExcept l (acyclicVisit st n).g := by
  simp only [acyclicVisit]
  split
  · split
    · refine nde_addEdge _ _ _ ?_
      refine nde_setPayload_ok ?_ rfl
      exact nde_sese _ _ h
    · exact h
  · exact h

theorem nde_visit (C : AstCtx σ β ν α) (ord : List Nat → List Nat)
    (bem : Nat → Option (List Nat × List Nat)) (trace : List Nat)
    (st : St σ β ν α) (n : Nat) (l : List Nat)
    (h : noDummyExcept l st.g) :
    noDummyExcept l (visit C ord bem trace st n).g := by
  simp only [visit]
  cases bem n with
  | none => exact nde_acyclicVisit st n l h
  | some p =>
    refine nde_loopMain C trace _ n _ _ _ l ?_
    show noDummyExcept ((loopPrep st n p.1 p.2).2.1 :: l)
      (loopPrep st n p.1 p.2).1
    show noDummyExcept (st.g.nextN :: l)
      (p.2.foldl (fun g eid => retarget_edge g eid
        (addNode st.g (CfgNode.Dummy "loop continue")).2)
        (addNode st.g (CfgNode.Dummy "loop continue")).1)
    refine nde_nodes_eq (retargetFold_nodes _ _ _) ?_
    exact nde_addNode_any _ h

theorem nde_visitFold (C : AstCtx σ β ν α) (ord : List Nat → List Nat)
    (bem : Nat → Option (List Nat × List Nat)) (trace : List Nat)
    (ns : List Nat) :
    ∀ st : St σ β ν α, noDummyExcept [] st.g →
    noDummyExcept [] ((ns.foldl (visit C ord bem trace) st)).g := by
  induction ns with
  | nil => exact fun st h => h
  | cons m tl ih =>
    intro st h
    rw [List.foldl_cons]
    exact ih _ (nde_visit C ord bem trace st m [] h)

theorem nde_swTerminal (st : St σ β ν α) (h : noDummyExcept [] st.g) :
    noDummyExcept [] (swTerminal st).2.g := by
  show noDummyExcept []
    (removeNode (removeNode (structure_acyclic_sese_region
      (terminalPrep st).1 st.entry (terminalPrep st).2).2
      (terminalPrep st).2) st.entry)
  have h1 : noDummyExcept [(terminalPrep st).2] (terminalPrep st).1 := by
    show noDummyExcept [st.g.nextN]
      ((((addNode st.g (CfgNode.Dummy "exit")).1.nodes.map (·.1)).filter
        (fun m => (edgesFrom (addNode st.g (CfgNode.Dummy "exit")).1
          m).isEmpty)).foldl
        (fun g m => addEdge g m st.g.nextN none)
        (addNode st.g (CfgNode.Dummy "exit")).1)
    have hnodes : ∀ (xs : List Nat) (g : Graph β ν α),
        (xs.foldl (fun g m => addEdge g m st.g.nextN none) g).nodes =
          g.nodes := by
      intro xs
      induction xs with
      | nil => exact fun g => rfl
      | cons x tl ih => exact fun g => ih (addEdge g x st.g.nextN none)
    refine nde_nodes_eq (hnodes _ _) ?_
    exact nde_addNode_any _ h
  have h2 := nde_sese st.entry (terminalPrep st).2 h1
  have h3 : noDummyExcept [st.entry]
      (removeNode (structure_acyclic_sese_region (terminalPrep st).1
        st.entry (terminalPrep st).2).2 (terminalPrep st).2) := by
    refine nde_removeNode h2 ?_
    intro x hx hne
    rcases List.mem_cons.mp hx with hx | hx
    · rw [hx]
      exact List.mem_cons_self _ _
    · rcases List.mem_cons.mp hx with hx | hx
      · exact absurd hx hne
      · cases hx
  refine nde_removeNode h3 ?_
  intro x hx hne
  rcases List.mem_cons.mp hx with hx | hx
  · exact absurd hx hne
  · cases hx

/-- C8.  No `Dummy` node escapes: if every node of the graph is `Code` or
`Condition` at the entry of a PO-DFS visit of `structure_whole`, the same
holds at its exit — the `loop_continue`, preheader, presuccessor and
replaced-header `Dummy` anchors are transient within the step — and a run
of `structure_whole` on a `Dummy`-free graph returns a `Dummy`-free
graph. -/
theorem c8_no_dummy_escapes (C : AstCtx σ β ν α) (ord : List Nat → List Nat)
    (bem : Nat → Option (List Nat × List Nat)) (trace : List Nat)
    (st : St σ β ν α) (n : Nat) (h : noDummy st.g) :
    noDummy (visit C ord bem trace st n).g ∧
    noDummy (structure_whole C ord st).2.g := by
  constructor
  · exact nde_noDummy (nde_visit C ord bem trace st n [] (noDummy_nde h))
  · show noDummy (swTerminal ((dfsRun st.g st.entry).post.foldl
      (visit C ord (backedgeMapOf (dfsRun st.g st.entry))
        (dfsRun st.g st.entry).post) st)).2.g
    refine nde_noDummy (nde_swTerminal _ ?_)
    exact nde_visitFold C ord _ _ _ st (noDummy_nde h)

/-- C8 witness: the preservation theorem at the one-node CFG `stOne` (whose
only node is `Code`), for an arbitrary visit and for the whole run. -/
theorem c8_witness :
    noDummy (visit stringAst id (fun _ => none) [] stOne 0).g ∧
    noDummy (structure_whole stringAst id stOne).2.g :=
  c8_no_dummy_escapes stringAst id (fun _ => none) [] stOne 0
    (by unfold noDummy; decide)

/-- A two-node graph with a single loop-exit edge, for the C7 witness. -/
def gBrk : Graph String String String :=
  { nodes := [(0, .Code (.BasicBlock "a")), (1, .Code (.BasicBlock "b"))],
    edges := [⟨0, 0, 1, none⟩], nextN := 2, nextE := 1 }

/-! ### Claim C2: reaching conditions -/

theorem mk_and_tru (x : BCond α) : mk_and x .tru = x := by
  by_cases h : x = BCond.tru
  · simp [mk_and, h]
  · simp [mk_and, h]

theorem alookup_cons_self {A : Type} (l : List (Nat × A)) (m : Nat) (c : A) :
    alookup ((m, c) :: l) m = some c := by
  unfold alookup
  rw [List.find?_cons_of_pos _ (by simp)]
  rfl

theorem alookup_cons_ne {A : Type} (l : List (Nat × A)) (m k : Nat) (c : A)
    (h : k ≠ m) : alookup ((m, c) :: l) k = alookup l k := by
  unfold alookup
  rw [List.find?_cons_of_neg _ (by simpa using Ne.symm h)]

theorem rcFold_keys (g : Graph β ν α) (sliceE : List Nat) (rest : List Nat) :
    ∀ (acc : List (Nat × BCond α)),
    (rest.foldl (rcStep g sliceE) acc).map (·.1) =
      rest.reverse ++ acc.map (·.1) := by
  induction rest with
  | nil => intro acc; simp
  | cons m tl ih =>
    intro acc
    rw [List.foldl_cons, ih (rcStep g sliceE acc m)]
    show tl.reverse ++ (m :: acc.map (·.1)) = _
    simp

theorem rcFold_pres (g : Graph β ν α) (sliceE : List Nat) (rest : List Nat) :
    ∀ (acc : List (Nat × BCond α)) (k : Nat), k ∉ rest →
    alookup (rest.foldl (rcStep g sliceE) acc) k = alookup acc k := by
  induction rest with
  | nil => intro acc k _; rfl
  | cons m tl ih =>
    intro acc k hk
    rw [List.foldl_cons, ih _ k (fun h => hk (List.mem_cons_of_mem _ h))]
    exact alookup_cons_ne _ _ _ _ (fun h => hk (h ▸ List.mem_cons_self m tl))

theorem indexOf_append_not_mem {x : Nat} (l1 l2 : List Nat) (h : x ∉ l1) :
    (l1 ++ l2).indexOf x = l1.length + l2.indexOf x := by
  induction l1 with
  | nil => simp
  | cons a tl ih =>
    have hxa : x ≠ a := fun hh => h (hh ▸ List.mem_cons_self a tl)
    rw [List.cons_append, List.indexOf_cons_ne _ (fun hh => hxa hh.symm),
        ih (fun hh => h (List.mem_cons_of_mem _ hh))]
    simp [Nat.succ_add]

theorem mem_take_of_indexOf_lt {x : Nat} :
    ∀ (l : List Nat) (n : Nat), x ∈ l → l.indexOf x < n → x ∈ l.take n := by
  intro l
  induction l with
  | nil => intro n h; cases h
  | cons a tl ih =>
    intro n hmem hidx
    by_cases hxa : x = a
    · subst hxa
      cases n with
      | zero => simp [List.indexOf_cons_self] at hidx
      | succ n => exact List.mem_cons_self _ _
    · rw [List.indexOf_cons_ne _ (fun hh => hxa hh.symm)] at hidx
      cases n with
      | zero => cases hidx
      | succ n =>
        rcases List.mem_cons.mp hmem with h | h
        · exact absurd h hxa
        · exact List.mem_cons_of_mem _ (ih n h (Nat.lt_of_succ_lt_succ hidx))

/-- Claim C2: `reaching_conditions` assigns the start node the condition
`true`; assigns every other slice node `v` the or-fold, over the slice
edges entering `v`, of `rc(u) ∧ guard` (the guard taken as `true` when the
edge weight is absent); computes these in the slice's topological order;
and writes each slice node's condition exactly once (the map's keys are
exactly the topological order, in processing order).  The hypotheses state
that the slice returned a valid topological order. -/
theorem c2_reaching_conditions (g : Graph β ν α) (start : Nat)
    (endSet : List Nat)
    (htopo : (slice g start endSet).2.2.head? = some start)
    (hnd : (slice g start endSet).2.2.Nodup)
    (hord : ∀ e ∈ g.edges, e.eid ∈ (slice g start endSet).2.1 →
      e.src ∈ (slice g start endSet).2.2 ∧
      (slice g start endSet).2.2.indexOf e.src <
        (slice g start endSet).2.2.indexOf e.tgt) :
    alookup (reaching_conditions g start endSet).1 start = some .tru ∧
    (∀ v ∈ (slice g start endSet).2.2, v ≠ start →
      alookup (reaching_conditions g start endSet).1 v =
        some (mk_or_from_iter
          (((edgesInto g v).filter
              (fun e => e.eid ∈ (slice g start endSet).2.1)).map
            (fun e => mk_and
              ((alookup (reaching_conditions g start endSet).1 e.src).getD
                .tru)
              (e.w.getD .tru))))) ∧
    (reaching_conditions g start endSet).1.map (·.1) =
      (slice g start endSet).2.2.reverse := by
  have hT : (slice g start endSet).2.2 =
      start :: (slice g start endSet).2.2.tail := by
    cases hc : (slice g start endSet).2.2 with
    | nil => rw [hc] at htopo; cases htopo
    | cons a tl =>
      rw [hc] at htopo
      simp only [List.head?_cons, Option.some_inj] at htopo
      rw [htopo]
      rfl
  have hdrop : (slice g start endSet).2.2.drop 1 =
      (slice g start endSet).2.2.tail := by
    rw [hT]
    rfl
  have hM : (reaching_conditions g start endSet).1 =
      ((slice g start endSet).2.2.tail).foldl
        (rcStep g (slice g start endSet).2.1) [(start, .tru)] := by
    show ((slice g start endSet).2.2.drop 1).foldl _ _ = _
    rw [hdrop]
  have hndT : ((slice g start endSet).2.2.tail).Nodup ∧
      start ∉ (slice g start endSet).2.2.tail := by
    have := hnd
    rw [hT] at this
    exact ⟨(List.nodup_cons.mp this).2, (List.nodup_cons.mp this).1⟩
  refine ⟨?_, ?_, ?_⟩
  · rw [hM, rcFold_pres _ _ _ _ start hndT.2, alookup_cons_self]
  · intro v hv hvs
    have hvtail : v ∈ (slice g start endSet).2.2.tail := by
      rw [hT] at hv
      rcases List.mem_cons.mp hv with h | h
      · exact absurd h hvs
      · exact h
    obtain ⟨done, rest, hsplit⟩ := List.append_of_mem hvtail
    have hTfull : (slice g start endSet).2.2 =
        (start :: done) ++ (v :: rest) := by
      rw [hT, hsplit]
      rfl
    have hndF := hnd
    rw [hTfull] at hndF
    have hdisj := List.disjoint_of_nodup_append hndF
    have hvrest : v ∉ rest := by
      have h2 := (List.nodup_append.mp hndF).2.1
      exact (List.nodup_cons.mp h2).1
    have hfold : (reaching_conditions g start endSet).1 =
        (v :: rest).foldl (rcStep g (slice g start endSet).2.1)
          (done.foldl (rcStep g (slice g start endSet).2.1)
            [(start, .tru)]) := by
      rw [hM, hsplit, List.foldl_append]
    have hlook : alookup (reaching_conditions g start endSet).1 v =
        some (mk_or_from_iter (rcOps g (slice g start endSet).2.1
          (done.foldl (rcStep g (slice g start endSet).2.1)
            [(start, .tru)]) v)) := by
      rw [hfold, List.foldl_cons, rcFold_pres _ _ _ _ v hvrest]
      exact alookup_cons_self _ _ _
    rw [hlook]
    congr 1
    congr 1
    unfold rcOps
    refine List.map_congr_left ?_
    intro e he
    have he2 := List.mem_filter.mp he
    have heg : e ∈ g.edges := (List.mem_filter.mp he2.1).1
    have hetgt : e.tgt = v := by
      have := (List.mem_filter.mp he2.1).2
      simpa using this
    have heid : e.eid ∈ (slice g start endSet).2.1 := by
      simpa using he2.2
    obtain ⟨hsrcmem, hsrclt⟩ := hord e heg heid
    have hidxv : (slice g start endSet).2.2.indexOf v =
        1 + done.length := by
      rw [hTfull]
      have hvnotin : v ∉ start :: done := by
        intro hmem
        exact hdisj hmem (List.mem_cons_self v rest)
      show ((start :: done) ++ (v :: rest)).indexOf v = 1 + done.length
      rw [indexOf_append_not_mem _ _ hvnotin, List.indexOf_cons_self]
      simp [Nat.add_comm]
    have hsrcdone : e.src ∈ start :: done := by
      have htake : e.src ∈ (slice g start endSet).2.2.take (1 + done.length) := by
        refine mem_take_of_indexOf_lt _ _ hsrcmem ?_
        rw [← hidxv, ← hetgt]
        exact hsrclt
      rw [hTfull] at htake
      have : ((start :: done) ++ (v :: rest)).take (1 + done.length) =
          start :: done := by
        have hlen : (start :: done).length = 1 + done.length := by
          simp [Nat.add_comm]
        rw [← hlen, List.take_left]
      rw [this] at htake
      exact htake
    have hsrcnot : e.src ∉ v :: rest := fun hmem => hdisj hsrcdone hmem
    have hsrceq : alookup (reaching_conditions g start endSet).1 e.src =
        alookup (done.foldl (rcStep g (slice g start endSet).2.1)
          [(start, .tru)]) e.src := by
      rw [hfold, rcFold_pres _ _ _ _ e.src hsrcnot]
    cases hew : e.w with
    | none =>
      show (alookup _ e.src).getD .tru = mk_and _ ((none : Option (BCond α)).getD .tru)
      rw [Option.getD_none, mk_and_tru, hsrceq]
    | some c =>
      show mk_and ((alookup _ e.src).getD .tru) c = mk_and _ ((some c).getD .tru)
      rw [Option.getD_some, hsrceq]
  · rw [hM, rcFold_keys, hT]
    simp

theorem c2_witness :
    alookup (reaching_conditions gDia 0 [3]).1 0 = some .tru ∧
    (∀ v ∈ (slice gDia 0 [3]).2.2, v ≠ 0 →
      alookup (reaching_conditions gDia 0 [3]).1 v =
        some (mk_or_from_iter
          (((edgesInto gDia v).filter
              (fun e => e.eid ∈ (slice gDia 0 [3]).2.1)).map
            (fun e => mk_and
              ((alookup (reaching_conditions gDia 0 [3]).1 e.src).getD .tru)
              (e.w.getD .tru))))) ∧
    (reaching_conditions gDia 0 [3]).1.map (·.1) =
      (slice gDia 0 [3]).2.2.reverse :=
  c2_reaching_conditions gDia 0 [3] (by decide) (by decide) (by decide)

theorem c7_witness :
    ∃ b s, b ∉ gBrk.nodes.map (·.1) ∧
      payload (insertBreaks stringAst gBrk 0 [0] 5).1 b =
        some (.Code (.BasicBlock (stringAst.mk_break s).1)) ∧
      ((⟨0, 0, b, none⟩ : Edge String) ∈
        (insertBreaks stringAst gBrk 0 [0] 5).1.edges) ∧
      ∃ eid2, (⟨eid2, b, 5, some .fls⟩ : Edge String) ∈
        (insertBreaks stringAst gBrk 0 [0] 5).1.edges :=
  c7_break_insertion stringAst gBrk 0 [0] 5 (by decide) (by decide)
    (by decide) ⟨0, 0, 1, none⟩ (by decide) (by decide) (by decide)

end Radeco
